import Mathlib

/-!
# db-operator: the reconcile loop of the `Database` controller

Shallow embedding of `controllers/database_controller.go` (`Reconcile`, `finalize`,
`contains`, `removeString`) together with the parts of `controllers/postgres/postgres.go`
and `controllers/user/user.go` the loop depends on.

Modelling conventions.

* Every call that leaves the process (the resource store `r.Update`, `r.Create`, `r.Get`,
  `r.Delete`; the backend adapter `db.*`; adapter construction `postgres.NewDB`; the
  password generator behind `user.NewUser`) is recorded, in program order, as a `Step`:
  the call with its arguments and the error it returned.  The answers of the outside
  world are the fields of `Env`.
* The initial `r.Get` of the resource is the input of the pass (`Env.Get`); the recorded
  trace starts after it.
* Logging is not an effect of the model.
* The package-level variable `var db DB` is threaded explicitly: `Reconcile` receives its
  value before the pass and returns its value after the pass.  A method call on the nil
  interface value is a run-time panic (`Outcome.panic`).
-/

namespace DbOperator

/-- Go `error` values are represented by their message. -/
abbrev Error := String

/-! ## Data model (`api/v1beta1`, `metav1.ObjectMeta`, `v1.Secret`, `user.User`) -/

/-- The fields of `metav1.ObjectMeta` read or written by the controller. -/
structure ObjectMeta where
  Name : String
  Namespace : String
  DeletionTimestamp : Option Nat
  Finalizers : List String
deriving DecidableEq

/-- The declared spec: `database.Spec.Type`, `.Schema`, `.Users`, `.Drop`. -/
structure DatabaseSpec where
  Type' : String
  Schema : String
  Users : List String
  Drop : Bool
deriving DecidableEq

/-- The status block: `database.Status.Phase`. -/
structure DatabaseStatus where
  Phase : String
deriving DecidableEq

/-- The custom resource `clarizencloudv1beta1.Database`. -/
structure Database where
  ObjectMeta : ObjectMeta
  Spec : DatabaseSpec
  Status : DatabaseStatus
deriving DecidableEq

/-- Go promotes the embedded `ObjectMeta.Name` to `database.Name`. -/
abbrev Database.Name (database : Database) : String := database.ObjectMeta.Name

/-- Go promotes the embedded `ObjectMeta.Namespace` to `database.Namespace`. -/
abbrev Database.Namespace (database : Database) : String := database.ObjectMeta.Namespace

/-- The test `(*metav1.Time).IsZero`: a nil pointer or the zero instant. -/
def IsZero (t : Option Nat) : Bool :=
  match t with
  | none => true
  | some n => n == 0

/-- The struct `user.User`. -/
structure User where
  Username : String
  Password : String
deriving DecidableEq

/-- The key `types.NamespacedName`. -/
structure NamespacedName where
  Namespace : String
  Name : String
deriving DecidableEq

/-- The fields of `v1.Secret` the controller fills in; `Data` lists the map entries. -/
structure Secret where
  Name : String
  Namespace : String
  Data : List (String × String)
deriving DecidableEq

/-- The zero value `v1.Secret{}`. -/
def emptySecret : Secret := { Name := "", Namespace := "", Data := [] }

/-- The adapter `postgres.Postgres` (the connection handle is part of the environment). -/
structure Postgres where
  dbs : Database
  Role : String
deriving DecidableEq

/-- The pure part of `postgres.NewDB`: `pg.Role = "<name>_admins"`, `pg.dbs = database`. -/
def NewDB (database : Database) : Postgres :=
  { dbs := database, Role := database.Name ++ "_admins" }

/-! ## Effects -/

/-- The calls a pass can issue. -/
inductive Call where
  | NewDB (database : Database)
  | Update (database : Database)
  | Exists
  | CreateDatabase
  | NewUser
  | CreateUser (user : User)
  | Create (secret : Secret)
  | RoleUsers
  | Revoke (user : String)
  | Grant (user : String)
  | Get (key : NamespacedName)
  | Delete (secret : Secret)
  | DropUser (user : String)
  | DropDatabase
deriving DecidableEq

/-- One recorded call together with the error it returned (`none` is Go's `nil`). -/
structure Step where
  call : Call
  err : Option Error
deriving DecidableEq

/-- The result of the initial `r.Get(ctx, req.NamespacedName, &database)`. -/
inductive GetResult where
  | found (database : Database)
  | notFound
  | failed (e : Error)

/-- The answers of the outside world during one pass.  `Revoke i u` and `Grant i u` are the
answers to the call issued at position `i` of the respective `range` loop. -/
structure Env where
  Get : GetResult
  NewDB : Option Error
  Update : Database → Option Error
  Exists : Except Error Bool
  CreateDatabase : Option Error
  NewUser : Except Error String
  CreateUser : User → Option Error
  GetHost : String
  Create : Secret → Option Error
  RoleUsers : Except Error (List String)
  Revoke : Nat → String → Option Error
  Grant : Nat → String → Option Error
  GetSecret : NamespacedName → Except Error Secret
  Delete : Secret → Option Error
  DropUser : String → Option Error
  DropDatabase : Option Error

/-- How a pass ends: `return ctrl.Result{}, nil`, `return ctrl.Result{}, err`, or a panic. -/
inductive Outcome where
  | ok
  | error (e : Error)
  | panic
deriving DecidableEq

/-- How a Go function call ends: it returns a value or it panics. -/
inductive Completion (α : Type) where
  | returned (a : α)
  | panicked

/-- After a section of `Reconcile`: the function has returned, or control continues with the
current value of the local variable `database`. -/
inductive Flow where
  | ret (o : Outcome)
  | next (database : Database)

/-- The observable result of one pass. -/
structure Pass where
  trace : List Step
  result : Outcome
  db : Option Postgres

/-! ## `contains`, `removeString` (database_controller.go:208-225) -/

/-- The helper `contains(list, s)`. -/
def contains (list : List String) (s : String) : Bool :=
  match list with
  | [] => false
  | v :: rest => if v == s then true else contains rest s

/-- The helper `removeString(slice, s)`: the loop appends every item different from `s`. -/
def removeString (slice : List String) (s : String) : List String :=
  slice.foldl (fun result item => if item == s then result else result ++ [item]) []

/-- The constant `myFinalizerName`. -/
def myFinalizerName : String := "db.clarizen.cloud"

/-- The name `fmt.Sprintf("%s-%s", database.Name, database.Spec.Type)`. -/
def secretKey (database : Database) : String :=
  database.Name ++ "-" ++ database.Spec.Type'

/-! ## `finalize` (database_controller.go:227-252) -/

/-- The method `finalize`: look the secret up (result ignored), delete it, drop the user and,
when `Spec.Drop` is set, drop the database; every error is only logged. -/
def finalize (env : Env) (db : Option Postgres) (database : Database) :
    List Step × Completion (Option Error) :=
  let secretName : NamespacedName :=
    { Namespace := database.Namespace, Name := secretKey database }
  let looked := env.GetSecret secretName
  let secret : Secret :=
    match looked with
    | .ok s => s
    | .error _ => emptySecret
  let getErr : Option Error :=
    match looked with
    | .ok _ => none
    | .error e => some e
  let t1 : List Step := [⟨.Get secretName, getErr⟩, ⟨.Delete secret, env.Delete secret⟩]
  match db with
  | none => (t1, .panicked)
  | some _ =>
    let t2 := t1 ++ [⟨.DropUser database.Name, env.DropUser database.Name⟩]
    if database.Spec.Drop then
      (t2 ++ [⟨.DropDatabase, env.DropDatabase⟩], .returned none)
    else
      (t2, .returned none)

/-! ## `Reconcile` (database_controller.go:60-200) -/

/-- Lines 75-83: the `switch database.Spec.Type`.  Only the literal strings `"postgres"` and
`"*"` have a case; any other value leaves the package variable `db` as it was. -/
def selectBackend (env : Env) (db : Option Postgres) (database : Database) :
    List Step × Option Postgres × Flow :=
  if database.Spec.Type' == "postgres" then
    match env.NewDB with
    | some e => ([⟨.NewDB database, some e⟩], some (NewDB database), .ret (.error e))
    | none => ([⟨.NewDB database, none⟩], some (NewDB database), .next database)
  else if database.Spec.Type' == "*" then
    ([], db, .ret (.error "unsupported database type"))
  else
    ([], db, .next database)

/-- Lines 85-107: registration of the finalizer, or the deletion branch. -/
def finalizerStage (env : Env) (db : Option Postgres) (database : Database) :
    List Step × Flow :=
  if IsZero database.ObjectMeta.DeletionTimestamp then
    if !contains database.ObjectMeta.Finalizers myFinalizerName then
      let database : Database :=
        { database with ObjectMeta :=
            { database.ObjectMeta with
              Finalizers := database.ObjectMeta.Finalizers ++ [myFinalizerName] } }
      match env.Update database with
      | some e => ([⟨.Update database, some e⟩], .ret (.error e))
      | none => ([⟨.Update database, none⟩], .next database)
    else
      ([], .next database)
  else
    if contains database.ObjectMeta.Finalizers myFinalizerName then
      match finalize env db database with
      | (t, .panicked) => (t, .ret .panic)
      | (t, .returned (some e)) => (t, .ret (.error e))
      | (t, .returned none) =>
        let database : Database :=
          { database with
            ObjectMeta :=
              { database.ObjectMeta with
                Finalizers := removeString database.ObjectMeta.Finalizers myFinalizerName }
            Status := { database.Status with Phase := "Terminating" } }
        match env.Update database with
        | some e => (t ++ [⟨.Update database, some e⟩], .ret (.error e))
        | none => (t ++ [⟨.Update database, none⟩], .ret .ok)
    else
      ([], .next database)

/-- The secret built at lines 137-149. -/
def newSecret (env : Env) (database : Database) (dbUser : User) : Secret :=
  { Name := secretKey database
    Namespace := database.Namespace
    Data :=
      [ ("database-host", env.GetHost),
        ("database-port", "5432"),
        ("database-name", database.Name),
        ("database-user", dbUser.Username),
        ("database-password", dbUser.Password) ] }

/-- Lines 109-163: provisioning when `Status.Phase != "Created"`. -/
def provision (env : Env) (db : Option Postgres) (database : Database) :
    List Step × Flow :=
  if database.Status.Phase != "Created" then
    match db with
    | none => ([], .ret .panic)
    | some _ =>
      match env.Exists with
      | .error e => ([⟨.Exists, some e⟩], .ret (.error e))
      | .ok true => ([⟨.Exists, none⟩], .next database)
      | .ok false =>
        match env.CreateDatabase with
        | some e => ([⟨.Exists, none⟩, ⟨.CreateDatabase, some e⟩], .ret (.error e))
        | none =>
          match env.NewUser with
          | .error e =>
            ([⟨.Exists, none⟩, ⟨.CreateDatabase, none⟩, ⟨.NewUser, some e⟩], .ret (.error e))
          | .ok password =>
            let dbUser : User := { Username := database.Name, Password := password }
            match env.CreateUser dbUser with
            | some e =>
              ([⟨.Exists, none⟩, ⟨.CreateDatabase, none⟩, ⟨.NewUser, none⟩,
                ⟨.CreateUser dbUser, some e⟩], .ret (.error e))
            | none =>
              let secret := newSecret env database dbUser
              match env.Create secret with
              | some e =>
                ([⟨.Exists, none⟩, ⟨.CreateDatabase, none⟩, ⟨.NewUser, none⟩,
                  ⟨.CreateUser dbUser, none⟩, ⟨.Create secret, some e⟩], .ret .ok)
              | none =>
                let database : Database :=
                  { database with Status := { database.Status with Phase := "Created" } }
                match env.Update database with
                | some e =>
                  ([⟨.Exists, none⟩, ⟨.CreateDatabase, none⟩, ⟨.NewUser, none⟩,
                    ⟨.CreateUser dbUser, none⟩, ⟨.Create secret, none⟩,
                    ⟨.Update database, some e⟩], .ret (.error e))
                | none =>
                  ([⟨.Exists, none⟩, ⟨.CreateDatabase, none⟩, ⟨.NewUser, none⟩,
                    ⟨.CreateUser dbUser, none⟩, ⟨.Create secret, none⟩,
                    ⟨.Update database, none⟩], .next database)
  else
    ([], .next database)

/-- The shared shape `if err != nil { log.Error(...); err = nil } else { log.Info(...) }` of
both loop bodies: the value of `err` after the `if`. -/
def swallow (err : Option Error) : Option Error :=
  if err != none then none else err

/-- Lines 173-184: the revoke loop over `currentUsers`, from position `i`, threading the
function-level variable `err` (reset to nil after a failed call). -/
def revokeLoop (env : Env) (users : List String) :
    Nat → List String → Option Error → List Step × Option Error
  | _, [], err => ([], err)
  | i, u :: rest, err =>
    if !contains users u then
      let err1 := env.Revoke i u
      let r := revokeLoop env users (i + 1) rest (swallow err1)
      (⟨.Revoke u, err1⟩ :: r.1, r.2)
    else
      revokeLoop env users (i + 1) rest err

/-- Lines 186-197: the grant loop over `users`, from position `i`. -/
def grantLoop (env : Env) (currentUsers : List String) :
    Nat → List String → Option Error → List Step × Option Error
  | _, [], err => ([], err)
  | i, u :: rest, err =>
    if !contains currentUsers u then
      let err1 := env.Grant i u
      let r := grantLoop env currentUsers (i + 1) rest (swallow err1)
      (⟨.Grant u, err1⟩ :: r.1, r.2)
    else
      grantLoop env currentUsers (i + 1) rest err

/-- The value returned by `return ctrl.Result{}, err`. -/
def outcomeOf (err : Option Error) : Outcome :=
  match err with
  | none => .ok
  | some e => .error e

/-- Lines 165-199: list the role members, revoke the undeclared ones, grant the missing
ones, return the final value of `err`. -/
def converge (env : Env) (db : Option Postgres) (database : Database) :
    List Step × Outcome :=
  match db with
  | none => ([], .panic)
  | some _ =>
    match env.RoleUsers with
    | .error e => ([⟨.RoleUsers, some e⟩], .error e)
    | .ok currentUsers =>
      let users := [database.Name] ++ database.Spec.Users
      let r1 := revokeLoop env users 0 currentUsers none
      let r2 := grantLoop env currentUsers 0 users r1.2
      ([⟨.RoleUsers, none⟩] ++ r1.1 ++ r2.1, outcomeOf r2.2)

/-- The method `Reconcile`, given the value of the package variable `db` before the pass. -/
def Reconcile (env : Env) (db : Option Postgres) : Pass :=
  match env.Get with
  | .failed e => ⟨[], .error e, db⟩
  | .notFound => ⟨[], .ok, db⟩
  | .found database =>
    if database.Status.Phase == "Terminating" then
      ⟨[], .ok, db⟩
    else
      match selectBackend env db database with
      | (t1, db1, .ret o) => ⟨t1, o, db1⟩
      | (t1, db1, .next database) =>
        match finalizerStage env db1 database with
        | (t2, .ret o) => ⟨t1 ++ t2, o, db1⟩
        | (t2, .next database) =>
          match provision env db1 database with
          | (t3, .ret o) => ⟨t1 ++ t2 ++ t3, o, db1⟩
          | (t3, .next database) =>
            match converge env db1 database with
            | (t4, o) => ⟨t1 ++ t2 ++ t3 ++ t4, o, db1⟩

/-- The calls of a trace, without the returned errors. -/
def calls (trace : List Step) : List Call := trace.map Step.call

/-! ## Observers used by the statements -/

/-- OwnedRole membership after one recorded step: a successful `Grant u` adds `u`, a
successful `Revoke u` removes `u`, every other step leaves the set alone. -/
def applyStep (members : List String) (s : Step) : List String :=
  match s.call, s.err with
  | .Grant u, none => u :: members
  | .Revoke u, none => members.filter (fun v => v != u)
  | _, _ => members

/-- OwnedRole membership after a trace, starting from `members`. -/
def membersAfter (members : List String) (trace : List Step) : List String :=
  trace.foldl applyStep members

/-- Calls that are neither the role-member listing nor a grant nor a revoke. -/
def setupCall (c : Call) : Bool :=
  match c with
  | .RoleUsers => false
  | .Grant _ => false
  | .Revoke _ => false
  | _ => true

/-- Calls that change role membership: `Grant` and `Revoke`. -/
def membershipCall (c : Call) : Bool :=
  match c with
  | .Grant _ => true
  | .Revoke _ => true
  | _ => false

/-- A resource that is not being deleted: database `orders`, declared user `alice`. -/
def ordersDatabase : Database :=
  { ObjectMeta :=
      { Name := "orders", Namespace := "default", DeletionTimestamp := none, Finalizers := [] }
    Spec := { Type' := "postgres", Schema := "", Users := ["alice"], Drop := false }
    Status := { Phase := "" } }

/-- An environment in which every call succeeds: the database does not exist yet, the role
has the members `current`, the credential artifact is not found on lookup. -/
def calmEnv (database : Database) (current : List String) : Env :=
  { Get := .found database
    NewDB := none
    Update := fun _ => none
    Exists := .ok false
    CreateDatabase := none
    NewUser := .ok "s3cret"
    CreateUser := fun _ => none
    GetHost := "localhost"
    Create := fun _ => none
    RoleUsers := .ok current
    Revoke := fun _ _ => none
    Grant := fun _ _ => none
    GetSecret := fun _ => .error "not found"
    Delete := fun _ => none
    DropUser := fun _ => none
    DropDatabase := none }

/-- The resource `orders` with deletion requested, waiting on the garbage collector's
`foregroundDeletion` finalizer; the operator's own marker was never added. -/
def deletingDatabase : Database :=
  { ObjectMeta :=
      { Name := "orders", Namespace := "default", DeletionTimestamp := some 1588000000,
        Finalizers := ["foregroundDeletion"] }
    Spec := { Type' := "postgres", Schema := "", Users := ["alice"], Drop := false }
    Status := { Phase := "" } }

/-- The resource `orders` with deletion requested, held only by a foreign finalizer. -/
def heldDatabase : Database :=
  { ObjectMeta :=
      { Name := "orders", Namespace := "default", DeletionTimestamp := some 1588000000,
        Finalizers := ["example.com/hold"] }
    Spec := { Type' := "postgres", Schema := "", Users := [], Drop := false }
    Status := { Phase := "" } }

/-- A resource that declares the backend type `mysql`. -/
def mysqlDatabase : Database :=
  { ObjectMeta :=
      { Name := "billing", Namespace := "default", DeletionTimestamp := none, Finalizers := [] }
    Spec := { Type' := "mysql", Schema := "", Users := [], Drop := false }
    Status := { Phase := "" } }

/-- The resource `orders` in phase `Terminating`. -/
def terminatingDatabase : Database :=
  { ObjectMeta :=
      { Name := "orders", Namespace := "default", DeletionTimestamp := some 1588000000,
        Finalizers := [] }
    Spec := { Type' := "postgres", Schema := "", Users := ["alice"], Drop := true }
    Status := { Phase := "Terminating" } }

/-- Calls that build backend objects or change role membership: `CreateDatabase`,
`CreateUser`, `Grant`, `Revoke`. -/
def buildCall (c : Call) : Bool :=
  match c with
  | .CreateDatabase => true
  | .CreateUser _ => true
  | .Grant _ => true
  | .Revoke _ => true
  | _ => false

/-- The resource `orders`, provisioned, with deletion requested and the operator's
finalizer in place. -/
def finalizingDatabase : Database :=
  { ObjectMeta :=
      { Name := "orders", Namespace := "default", DeletionTimestamp := some 1588000000,
        Finalizers := ["db.clarizen.cloud"] }
    Spec := { Type' := "postgres", Schema := "", Users := ["alice"], Drop := false }
    Status := { Phase := "Created" } }

/-- An environment whose backend cannot be reached: `postgres.NewDB` fails on `Ping`. -/
def unreachableEnv (database : Database) : Env :=
  { calmEnv database [] with NewDB := some "connection refused" }

/-- The resource `orders`, not being deleted, with the operator's finalizer already in place
and a phase that is not `Created`. -/
def registeredDatabase : Database :=
  { ObjectMeta :=
      { Name := "orders", Namespace := "default", DeletionTimestamp := none,
        Finalizers := ["db.clarizen.cloud"] }
    Spec := { Type' := "postgres", Schema := "", Users := ["alice"], Drop := false }
    Status := { Phase := "" } }

/-- An environment whose backend already holds the database; the role has the members
`current`. -/
def existingEnv (database : Database) (current : List String) : Env :=
  { calmEnv database current with Exists := .ok true }

/-- An environment in which only the write of the secret fails. -/
def secretFailEnv (database : Database) (current : List String) : Env :=
  { calmEnv database current with Create := fun _ => some "forbidden" }

/-- The resource held by the store after a trace: the object of the last `Update` that
succeeded, or the fetched resource when there was none. -/
def storedAfter (fetched : Database) (trace : List Step) : Database :=
  trace.foldl
    (fun cur s =>
      match s.call, s.err with
      | .Update obj, none => obj
      | _, _ => cur)
    fetched

/-- Whether the database exists after a trace, given whether it existed before: a successful
`CreateDatabase` makes it exist, a successful `DropDatabase` makes it not exist. -/
def existsAfter (before : Bool) (trace : List Step) : Bool :=
  trace.foldl
    (fun cur s =>
      match s.call, s.err with
      | .CreateDatabase, none => true
      | .DropDatabase, none => false
      | _, _ => cur)
    before

/-- The resource `orders` as the store holds it after a first successful pass: finalizer in
place, phase `Created`. -/
def provisionedDatabase : Database :=
  { ObjectMeta :=
      { Name := "orders", Namespace := "default", DeletionTimestamp := none,
        Finalizers := ["db.clarizen.cloud"] }
    Spec := { Type' := "postgres", Schema := "", Users := ["alice"], Drop := false }
    Status := { Phase := "Created" } }

/-- An environment in which every `Grant` is refused and every other call succeeds. -/
def grantFailEnv (database : Database) (current : List String) : Env :=
  { calmEnv database current with Grant := fun _ _ => some "permission denied" }

/-- An environment in which every `Grant` and every `Revoke` is refused and every other call
succeeds. -/
def refusingEnv (database : Database) (current : List String) : Env :=
  { calmEnv database current with
    Grant := fun _ _ => some "permission denied"
    Revoke := fun _ _ => some "permission denied" }

/-- The resource `orders`, provisioned and registered, that declares its own name as a
user. -/
def selfUserDatabase : Database :=
  { ObjectMeta :=
      { Name := "orders", Namespace := "default", DeletionTimestamp := none,
        Finalizers := ["db.clarizen.cloud"] }
    Spec := { Type' := "postgres", Schema := "", Users := ["orders"], Drop := false }
    Status := { Phase := "Created" } }

/-- The resource `orders`, provisioned and registered, with no declared users. -/
def soloDatabase : Database :=
  { ObjectMeta :=
      { Name := "orders", Namespace := "default", DeletionTimestamp := none,
        Finalizers := ["db.clarizen.cloud"] }
    Spec := { Type' := "postgres", Schema := "", Users := [], Drop := false }
    Status := { Phase := "Created" } }

/-- The resource `obj` agrees with `d` in name, namespace, deletion timestamp and spec, and in
every finalizer other than the operator's marker, order included. -/
def FrameOf (d obj : Database) : Prop :=
  obj.ObjectMeta.Name = d.ObjectMeta.Name
    ∧ obj.ObjectMeta.Namespace = d.ObjectMeta.Namespace
    ∧ obj.ObjectMeta.DeletionTimestamp = d.ObjectMeta.DeletionTimestamp
    ∧ obj.Spec = d.Spec
    ∧ obj.ObjectMeta.Finalizers.filter (fun f => f != myFinalizerName)
        = d.ObjectMeta.Finalizers.filter (fun f => f != myFinalizerName)

/-- The phase `q` may follow the phase `p` within one pass: unchanged, or `Created` reached
from a phase that is neither `Created` nor `Terminating`, or `Terminating`. -/
def PhaseStep (p q : String) : Prop :=
  q = p ∨ (q = "Created" ∧ p ≠ "Created" ∧ p ≠ "Terminating") ∨ q = "Terminating"

/-- The resource `billing` with a foreign finalizer on either side of the operator's marker,
deletion requested. -/
def sandwichedDatabase : Database :=
  { ObjectMeta :=
      { Name := "billing", Namespace := "prod", DeletionTimestamp := some 1588000000,
        Finalizers := ["example.com/a", "db.clarizen.cloud", "example.com/b"] }
    Spec := { Type' := "postgres", Schema := "app", Users := ["carol"], Drop := true }
    Status := { Phase := "Created" } }

/-- The calls whose failure the loop treats as fatal for the pass: adapter construction, the
existence check, `CreateDatabase`, `CreateUser` and the role-member listing. -/
def fatalCall (c : Call) : Bool :=
  match c with
  | .NewDB _ => true
  | .Exists => true
  | .CreateDatabase => true
  | .CreateUser _ => true
  | .RoleUsers => true
  | _ => false

/-- An environment in which `CreateUser` fails and every other call succeeds. -/
def createUserFailEnv (database : Database) (current : List String) : Env :=
  { calmEnv database current with CreateUser := fun _ => some "role exists" }

/-- The cleanup calls of `finalize`: the delete of the secret, `DropUser`, `DropDatabase`. -/
def cleanupCall (c : Call) : Bool :=
  match c with
  | .Delete _ => true
  | .DropUser _ => true
  | .DropDatabase => true
  | _ => false

/-- An environment in which every cleanup step of `finalize` fails and every other call
succeeds. -/
def cleanupFailEnv (database : Database) : Env :=
  { calmEnv database [] with
    Delete := fun _ => some "forbidden"
    DropUser := fun _ => some "role is in use"
    DropDatabase := some "database is being accessed" }

/-! ## The postgres adapter's `CreateDatabase` (postgres/postgres.go:52-68) -/

/-- The method `(pg *Postgres) CreateDatabase`, given the answer `exec` of `pg.conn.Exec` to
each statement: the statements executed, in order, and the returned error. -/
def Postgres.CreateDatabase (exec : String → Option Error) (pg : Postgres) :
    List String × Option Error :=
  let query := "CREATE DATABASE \"" ++ pg.dbs.Name ++ "\""
  match exec query with
  | some err => ([query], some err)
  | none =>
    if pg.dbs.Spec.Schema != "" then
      let query' := "CREATE SCHEMA IF NOT EXISTS \"" ++ pg.dbs.Name ++ "\""
      match exec query' with
      | some err => ([query, query'], some err)
      | none => ([query, query'], none)
    else
      ([query], none)

/-- A connection on which `CREATE DATABASE "billing"` fails and every other statement
succeeds. -/
def busyConn (query : String) : Option Error :=
  if query == "CREATE DATABASE \"billing\"" then some "database already exists" else none

/-- The resource `billing` of the type `mysql` after the registration branch of an earlier
pass has stored the operator's finalizer: deletion is now requested and `Spec.Drop` is set. -/
def mysqlFinalizingDatabase : Database :=
  { ObjectMeta :=
      { Name := "billing", Namespace := "default", DeletionTimestamp := some 1588000000,
        Finalizers := ["db.clarizen.cloud"] }
    Spec := { Type' := "mysql", Schema := "", Users := [], Drop := true }
    Status := { Phase := "" } }

/-! # Verification -/

/-! ## Basic facts -/

theorem contains_iff (list : List String) (s : String) : contains list s = true ↔ s ∈ list := by
  induction list with
  | nil => simp [contains]
  | cons v rest ih =>
    unfold contains
    by_cases h : v = s
    · simp [h]
    · have h2 : ¬ s = v := fun e => h e.symm
      simp [h, h2, ih]

theorem contains_eq_false_iff (list : List String) (s : String) :
    contains list s = false ↔ s ∉ list := by
  rw [← contains_iff]; simp

theorem removeString_foldl (s : String) (slice acc : List String) :
    slice.foldl (fun result item => if item == s then result else result ++ [item]) acc
      = acc ++ slice.filter (fun item => item != s) := by
  induction slice generalizing acc with
  | nil => simp
  | cons x xs ih =>
    simp only [List.foldl_cons, ih]
    by_cases h : x = s
    · simp [h]
    · simp [h, List.filter_cons]

theorem removeString_eq_filter (slice : List String) (s : String) :
    removeString slice s = slice.filter (fun item => item != s) := by
  unfold removeString
  rw [removeString_foldl]; simp

theorem contains_removeString (slice : List String) (s : String) :
    contains (removeString slice s) s = false := by
  rw [contains_eq_false_iff, removeString_eq_filter]
  simp

theorem swallow_eq_none (err : Option Error) : swallow err = none := by
  cases err <;> simp [swallow]

/-! ## The sections of `Reconcile` -/

theorem selectBackend_setup (env : Env) (db : Option Postgres) (d : Database) :
    ∀ s ∈ (selectBackend env db d).1, setupCall s.call = true := by
  unfold selectBackend
  split_ifs <;> try split
  all_goals simp [setupCall]

theorem selectBackend_next (env : Env) (db : Option Postgres) (d d' : Database)
    (h : (selectBackend env db d).2.2 = .next d') : d' = d := by
  unfold selectBackend at h
  split_ifs at h <;> try split at h
  all_goals simp_all

theorem finalize_setup (env : Env) (db : Option Postgres) (d : Database) :
    ∀ s ∈ (finalize env db d).1, setupCall s.call = true := by
  unfold finalize
  cases db with
  | none => simp [setupCall]
  | some pg =>
    by_cases hd : d.Spec.Drop = true
    · simp [hd, setupCall]
    · simp [hd, setupCall]

theorem finalizerStage_setup (env : Env) (db : Option Postgres) (d : Database) :
    ∀ s ∈ (finalizerStage env db d).1, setupCall s.call = true := by
  have hf := finalize_setup env db d
  unfold finalizerStage
  split_ifs
  · dsimp only
    split <;> simp [setupCall]
  · simp
  · split
    · simp_all
    · simp_all
    · dsimp only
      split
      · intro s hs
        simp only [List.mem_append, List.mem_singleton] at hs
        rcases hs with hs | hs
        · simp_all
        · subst hs; simp [setupCall]
      · intro s hs
        simp only [List.mem_append, List.mem_singleton] at hs
        rcases hs with hs | hs
        · simp_all
        · subst hs; simp [setupCall]
  · simp

theorem finalizerStage_next (env : Env) (db : Option Postgres) (d d' : Database)
    (h : (finalizerStage env db d).2 = .next d') :
    d'.Spec = d.Spec ∧ d'.Status = d.Status ∧ d'.Name = d.Name
      ∧ d'.Namespace = d.Namespace
      ∧ d'.ObjectMeta.DeletionTimestamp = d.ObjectMeta.DeletionTimestamp := by
  unfold finalizerStage at h
  split_ifs at h
  · dsimp only at h
    split at h <;> simp_all
    subst h; simp
  · simp_all
  · split at h
    · simp_all
    · simp_all
    · dsimp only at h
      split at h <;> simp_all
  · simp_all

theorem provision_setup (env : Env) (db : Option Postgres) (d : Database) :
    ∀ s ∈ (provision env db d).1, setupCall s.call = true := by
  unfold provision
  split_ifs
  · repeat' (first | split | (dsimp only; split))
    all_goals simp [setupCall]
  · simp

theorem provision_next (env : Env) (db : Option Postgres) (d d' : Database)
    (h : (provision env db d).2 = .next d') :
    d'.Spec = d.Spec ∧ d'.ObjectMeta = d.ObjectMeta := by
  unfold provision at h
  split_ifs at h
  · repeat' (first | split at h | (dsimp only at h; split at h))
    all_goals simp_all
    all_goals (subst h; simp)
  · simp_all

/-! ## The convergence loops -/

theorem membersAfter_append (M : List String) (t1 t2 : List Step) :
    membersAfter M (t1 ++ t2) = membersAfter (membersAfter M t1) t2 := by
  simp [membersAfter, List.foldl_append]

theorem membersAfter_setup (M : List String) (t : List Step)
    (h : ∀ s ∈ t, setupCall s.call = true) : membersAfter M t = M := by
  induction t generalizing M with
  | nil => rfl
  | cons s t ih =>
    have hs : setupCall s.call = true := h s (by simp)
    have ht : ∀ s' ∈ t, setupCall s'.call = true := fun s' hs' => h s' (by simp [hs'])
    have h1 : applyStep M s = M := by
      unfold applyStep
      split <;> simp_all [setupCall]
    simp only [membersAfter, List.foldl_cons, h1]
    exact ih M ht

theorem revokeLoop_calls (env : Env) (users : List String) (L : List String) (i : Nat)
    (err : Option Error) :
    calls (revokeLoop env users i L err).1
      = (L.filter (fun u => !contains users u)).map Call.Revoke := by
  induction L generalizing i err with
  | nil => simp [revokeLoop, calls]
  | cons u rest ih =>
    by_cases hu : contains users u = true
    · simp [revokeLoop, hu, ih]
    · simp only [Bool.not_eq_true] at hu
      have := ih (i + 1) (swallow (env.Revoke i u))
      simp [revokeLoop, hu, calls] at this ⊢
      exact this

theorem grantLoop_calls (env : Env) (currentUsers : List String) (L : List String) (i : Nat)
    (err : Option Error) :
    calls (grantLoop env currentUsers i L err).1
      = (L.filter (fun u => !contains currentUsers u)).map Call.Grant := by
  induction L generalizing i err with
  | nil => simp [grantLoop, calls]
  | cons u rest ih =>
    by_cases hu : contains currentUsers u = true
    · simp [grantLoop, hu, ih]
    · simp only [Bool.not_eq_true] at hu
      have := ih (i + 1) (swallow (env.Grant i u))
      simp [grantLoop, hu, calls] at this ⊢
      exact this

theorem revokeLoop_err (env : Env) (users : List String) (L : List String) (i : Nat) :
    (revokeLoop env users i L none).2 = none := by
  induction L generalizing i with
  | nil => simp [revokeLoop]
  | cons u rest ih =>
    by_cases hu : contains users u = true
    · simp [revokeLoop, hu, ih]
    · simp only [Bool.not_eq_true] at hu
      simp [revokeLoop, hu, swallow_eq_none, ih]

theorem grantLoop_err (env : Env) (currentUsers : List String) (L : List String) (i : Nat) :
    (grantLoop env currentUsers i L none).2 = none := by
  induction L generalizing i with
  | nil => simp [grantLoop]
  | cons u rest ih =>
    by_cases hu : contains currentUsers u = true
    · simp [grantLoop, hu, ih]
    · simp only [Bool.not_eq_true] at hu
      simp [grantLoop, hu, swallow_eq_none, ih]

theorem revokeLoop_members (env : Env) (users : List String) (L : List String) (i : Nat)
    (err : Option Error) (M : List String)
    (hok : ∀ s ∈ (revokeLoop env users i L err).1, s.err = none) (x : String) :
    x ∈ membersAfter M (revokeLoop env users i L err).1 ↔ x ∈ M ∧ ¬ (x ∈ L ∧ x ∉ users) := by
  induction L generalizing i err M with
  | nil => simp [revokeLoop, membersAfter]
  | cons u rest ih =>
    by_cases hu : contains users u = true
    · have hmem : u ∈ users := (contains_iff users u).1 hu
      simp only [revokeLoop, hu, Bool.not_true, Bool.false_eq_true, if_false] at hok ⊢
      rw [ih (i + 1) err M hok]
      constructor
      · rintro ⟨h1, h2⟩
        refine ⟨h1, ?_⟩
        rintro ⟨h3, h4⟩
        rcases List.mem_cons.1 h3 with h5 | h5
        · exact h4 (h5 ▸ hmem)
        · exact h2 ⟨h5, h4⟩
      · rintro ⟨h1, h2⟩
        exact ⟨h1, fun ⟨h3, h4⟩ => h2 ⟨List.mem_cons_of_mem _ h3, h4⟩⟩
    · simp only [Bool.not_eq_true] at hu
      have hnot : u ∉ users := (contains_eq_false_iff users u).1 hu
      simp only [revokeLoop, hu, Bool.not_false, if_true] at hok ⊢
      have h0 : env.Revoke i u = none := by
        have := hok ⟨.Revoke u, env.Revoke i u⟩ (List.mem_cons_self _ _)
        simpa using this
      have hrest : ∀ s ∈ (revokeLoop env users (i + 1) rest (swallow (env.Revoke i u))).1,
          s.err = none :=
        fun s hs => hok s (List.mem_cons_of_mem _ hs)
      have hstep : applyStep M ⟨.Revoke u, env.Revoke i u⟩ = M.filter (fun v => v != u) := by
        simp [applyStep, h0]
      simp only [membersAfter, List.foldl_cons, hstep]
      have := ih (i + 1) _ (M.filter (fun v => v != u)) hrest
      simp only [membersAfter] at this
      rw [this]
      simp only [List.mem_filter, bne_iff_ne, ne_eq, List.mem_cons]
      constructor
      · rintro ⟨⟨h1, h2⟩, h3⟩
        refine ⟨h1, ?_⟩
        rintro ⟨h4 | h4, h5⟩
        · exact h2 h4
        · exact h3 ⟨h4, h5⟩
      · rintro ⟨h1, h2⟩
        exact ⟨⟨h1, fun h3 => h2 ⟨Or.inl h3, h3 ▸ hnot⟩⟩, fun ⟨h3, h4⟩ => h2 ⟨Or.inr h3, h4⟩⟩

theorem grantLoop_members (env : Env) (currentUsers : List String) (L : List String) (i : Nat)
    (err : Option Error) (M : List String)
    (hok : ∀ s ∈ (grantLoop env currentUsers i L err).1, s.err = none) (x : String) :
    x ∈ membersAfter M (grantLoop env currentUsers i L err).1
      ↔ x ∈ M ∨ (x ∈ L ∧ x ∉ currentUsers) := by
  induction L generalizing i err M with
  | nil => simp [grantLoop, membersAfter]
  | cons u rest ih =>
    by_cases hu : contains currentUsers u = true
    · have hmem : u ∈ currentUsers := (contains_iff currentUsers u).1 hu
      simp only [grantLoop, hu, Bool.not_true, Bool.false_eq_true, if_false] at hok ⊢
      rw [ih (i + 1) err M hok]
      constructor
      · rintro (h1 | ⟨h1, h2⟩)
        · exact Or.inl h1
        · exact Or.inr ⟨List.mem_cons_of_mem _ h1, h2⟩
      · rintro (h1 | ⟨h1, h2⟩)
        · exact Or.inl h1
        · rcases List.mem_cons.1 h1 with h3 | h3
          · exact absurd (h3 ▸ hmem) h2
          · exact Or.inr ⟨h3, h2⟩
    · simp only [Bool.not_eq_true] at hu
      have hnot : u ∉ currentUsers := (contains_eq_false_iff currentUsers u).1 hu
      simp only [grantLoop, hu, Bool.not_false, if_true] at hok ⊢
      have h0 : env.Grant i u = none := by
        have := hok ⟨.Grant u, env.Grant i u⟩ (List.mem_cons_self _ _)
        simpa using this
      have hrest : ∀ s ∈ (grantLoop env currentUsers (i + 1) rest (swallow (env.Grant i u))).1,
          s.err = none :=
        fun s hs => hok s (List.mem_cons_of_mem _ hs)
      have hstep : applyStep M ⟨.Grant u, env.Grant i u⟩ = u :: M := by
        simp [applyStep, h0]
      simp only [membersAfter, List.foldl_cons, hstep]
      have := ih (i + 1) _ (u :: M) hrest
      simp only [membersAfter] at this
      rw [this]
      simp only [List.mem_cons]
      constructor
      · rintro ((h1 | h1) | ⟨h1, h2⟩)
        · exact Or.inr ⟨Or.inl h1, h1 ▸ hnot⟩
        · exact Or.inl h1
        · exact Or.inr ⟨Or.inr h1, h2⟩
      · rintro (h1 | ⟨h1 | h1, h2⟩)
        · exact Or.inl (Or.inr h1)
        · exact Or.inl (Or.inl h1)
        · exact Or.inr ⟨h1, h2⟩

/-! ## Shape of a pass -/

theorem mem_setup_not_roleUsers (t : List Step) (h : ∀ s ∈ t, setupCall s.call = true) :
    ¬ ∃ s ∈ t, s.call = Call.RoleUsers := by
  rintro ⟨s, hs, hc⟩
  have := h s hs
  simp [hc, setupCall] at this

theorem setup_append (t1 t2 : List Step) (h1 : ∀ s ∈ t1, setupCall s.call = true)
    (h2 : ∀ s ∈ t2, setupCall s.call = true) : ∀ s ∈ t1 ++ t2, setupCall s.call = true := by
  intro s hs
  rcases List.mem_append.1 hs with h | h
  · exact h1 s h
  · exact h2 s h

/-- A pass that lists the role members consists of set-up calls followed by the convergence
section, run with an adapter and on a resource with the fetched name and spec. -/
theorem Reconcile_reach (env : Env) (db : Option Postgres) (database : Database)
    (hget : env.Get = .found database)
    (hreach : ∃ s ∈ (Reconcile env db).trace, s.call = Call.RoleUsers) :
    ∃ pre pg d', (∀ s ∈ pre, setupCall s.call = true) ∧ d'.Spec = database.Spec
      ∧ d'.Name = database.Name
      ∧ (Reconcile env db).trace = pre ++ (converge env (some pg) d').1
      ∧ (Reconcile env db).result = (converge env (some pg) d').2 := by
  unfold Reconcile at hreach ⊢
  simp only [hget] at hreach ⊢
  split_ifs at hreach ⊢ with hT
  · simp at hreach
  · have s1 := selectBackend_setup env db database
    have n1 := selectBackend_next env db database
    rcases h1 : selectBackend env db database with ⟨t1, db1, f1⟩
    rw [h1] at s1 n1 hreach
    cases f1 with
    | ret o => exact absurd hreach (mem_setup_not_roleUsers _ s1)
    | next d1 =>
      have e1 : d1 = database := n1 d1 rfl
      subst e1
      simp only at hreach ⊢
      have s2 := finalizerStage_setup env db1 d1
      have n2 := finalizerStage_next env db1 d1
      rcases h2 : finalizerStage env db1 d1 with ⟨t2, f2⟩
      rw [h2] at s2 n2 hreach
      cases f2 with
      | ret o => exact absurd hreach (mem_setup_not_roleUsers _ (setup_append _ _ s1 s2))
      | next d2 =>
        obtain ⟨e2, -, e2n, -, -⟩ := n2 d2 rfl
        simp only at hreach ⊢
        have s3 := provision_setup env db1 d2
        have n3 := provision_next env db1 d2
        rcases h3 : provision env db1 d2 with ⟨t3, f3⟩
        rw [h3] at s3 n3 hreach
        have s123 := setup_append _ _ (setup_append _ _ s1 s2) s3
        cases f3 with
        | ret o => exact absurd hreach (mem_setup_not_roleUsers _ s123)
        | next d3 =>
          obtain ⟨e3, e3m⟩ := n3 d3 rfl
          simp only at hreach ⊢
          cases db1 with
          | none =>
            simp only [converge, List.append_nil] at hreach
            exact absurd hreach (mem_setup_not_roleUsers _ s123)
          | some pg =>
            refine ⟨t1 ++ t2 ++ t3, pg, d3, s123, e3.trans e2, ?_, rfl, rfl⟩
            show d3.ObjectMeta.Name = d1.ObjectMeta.Name
            rw [e3m]; exact e2n


theorem converge_members (env : Env) (pg : Postgres) (d : Database) (C : List String)
    (hC : env.RoleUsers = .ok C)
    (hok : ∀ s ∈ (converge env (some pg) d).1, membershipCall s.call = true → s.err = none)
    (x : String) :
    x ∈ membersAfter C (converge env (some pg) d).1 ↔ x = d.Name ∨ x ∈ d.Spec.Users := by
  have hmem : x ∈ [d.Name] ++ d.Spec.Users ↔ x = d.Name ∨ x ∈ d.Spec.Users := by simp
  rw [← hmem]
  simp only [converge, hC] at hok ⊢
  generalize [d.Name] ++ d.Spec.Users = users at hok ⊢
  have hR : ∀ s ∈ (revokeLoop env users 0 C none).1, s.err = none := by
    intro s hs
    have hc : s.call ∈ calls (revokeLoop env users 0 C none).1 := List.mem_map_of_mem _ hs
    rw [revokeLoop_calls] at hc
    obtain ⟨u, -, hu⟩ := List.mem_map.1 hc
    exact hok s (List.mem_append_left _ (List.mem_append_right _ hs)) (by rw [← hu]; rfl)
  have hG : ∀ s ∈ (grantLoop env C 0 users (revokeLoop env users 0 C none).2).1,
      s.err = none := by
    intro s hs
    have hc : s.call ∈ calls (grantLoop env C 0 users (revokeLoop env users 0 C none).2).1 :=
      List.mem_map_of_mem _ hs
    rw [grantLoop_calls] at hc
    obtain ⟨u, -, hu⟩ := List.mem_map.1 hc
    exact hok s (List.mem_append_right _ hs) (by rw [← hu]; rfl)
  rw [membersAfter_append, membersAfter_append, grantLoop_members _ _ _ _ _ _ hG,
    revokeLoop_members _ _ _ _ _ _ hR]
  have h0 : membersAfter C [⟨Call.RoleUsers, none⟩] = C := rfl
  rw [h0]
  by_cases hx : x ∈ C <;> by_cases hy : x ∈ users <;> simp [hx, hy]

/-- C1 (convergence of role membership): with membership modelled as a set that a successful
`Grant u` extends by `u` and a successful `Revoke u` reduces by `u`, a pass that reaches the
role-member listing, receives the list `C` from `RoleUsers` and sees every issued `Grant` and
`Revoke` succeed, leaves the membership equal to `{name} ∪ users`, whatever `C` was. -/
theorem convergence_of_role_membership (env : Env) (db : Option Postgres)
    (database : Database) (C : List String)
    (hget : env.Get = .found database)
    (hC : env.RoleUsers = .ok C)
    (hreach : Call.RoleUsers ∈ calls (Reconcile env db).trace)
    (hok : ∀ s ∈ (Reconcile env db).trace, membershipCall s.call = true → s.err = none)
    (x : String) :
    x ∈ membersAfter C (Reconcile env db).trace
      ↔ x = database.Name ∨ x ∈ database.Spec.Users := by
  have hreach' : ∃ s ∈ (Reconcile env db).trace, s.call = Call.RoleUsers := by
    obtain ⟨s, hs, hc⟩ := List.mem_map.1 hreach
    exact ⟨s, hs, hc⟩
  obtain ⟨pre, pg, d', hpre, hspec, hname, htr, -⟩ := Reconcile_reach env db database hget hreach'
  rw [htr] at hok ⊢
  rw [membersAfter_append, membersAfter_setup C pre hpre]
  have := converge_members env pg d' C hC (fun s hs => hok s (List.mem_append_right _ hs)) x
  rw [this, hspec]
  show x = d'.ObjectMeta.Name ∨ _ ↔ x = database.ObjectMeta.Name ∨ _
  rw [show d'.ObjectMeta.Name = database.ObjectMeta.Name from hname]

/-- The instance of C1 at `orders` with declared user `alice`, prior members `bob` and
`alice` (partial overlap), identity `bob`: the hypotheses hold and `bob` is no member. -/
theorem convergence_of_role_membership_witness :
    (calmEnv ordersDatabase ["bob", "alice"]).Get = .found ordersDatabase
      ∧ (calmEnv ordersDatabase ["bob", "alice"]).RoleUsers = .ok ["bob", "alice"]
      ∧ Call.RoleUsers ∈ calls (Reconcile (calmEnv ordersDatabase ["bob", "alice"]) none).trace
      ∧ ("bob" ∈ membersAfter ["bob", "alice"]
            (Reconcile (calmEnv ordersDatabase ["bob", "alice"]) none).trace
          ↔ "bob" = ordersDatabase.Name ∨ "bob" ∈ ordersDatabase.Spec.Users) :=
  ⟨rfl, rfl, by decide,
    convergence_of_role_membership (calmEnv ordersDatabase ["bob", "alice"]) none
      ordersDatabase ["bob", "alice"] rfl rfl (by decide) (by decide) "bob"⟩

/-- With an adapter in the package variable `finalize` returns nil, whatever its steps answer,
after the lookup, the delete, `DropUser` and, when `Spec.Drop` is set, `DropDatabase`. -/
theorem finalize_shape (env : Env) (pg : Postgres) (database : Database) :
    (finalize env (some pg) database).2 = .returned none
      ∧ calls (finalize env (some pg) database).1
          = [ Call.Get ⟨database.Namespace, database.Name ++ "-" ++ database.Spec.Type'⟩,
              Call.Delete
                (match env.GetSecret
                    ⟨database.Namespace, database.Name ++ "-" ++ database.Spec.Type'⟩ with
                  | .ok s => s
                  | .error _ => emptySecret),
              Call.DropUser database.Name ]
            ++ (if database.Spec.Drop then [Call.DropDatabase] else []) := by
  unfold finalize
  by_cases hd : database.Spec.Drop = true
  · simp [hd, calls, secretKey]
  · simp [hd, calls, secretKey]

/-- With an adapter in the package variable, and whatever the individual steps answer,
`finalize` returns nil after issuing exactly: the lookup of the secret under `<name>-<type>`
in the resource's namespace, the delete of what the lookup produced, `DropUser(name)`, and
then `DropDatabase` exactly when `Spec.Drop` is set. -/
theorem finalize_with_adapter (env : Env) (pg : Postgres) (database : Database) :
    (finalize env (some pg) database).2 = .returned none
      ∧ calls (finalize env (some pg) database).1
          = [ Call.Get ⟨database.Namespace, database.Name ++ "-" ++ database.Spec.Type'⟩,
              Call.Delete
                (match env.GetSecret
                    ⟨database.Namespace, database.Name ++ "-" ++ database.Spec.Type'⟩ with
                  | .ok s => s
                  | .error _ => emptySecret),
              Call.DropUser database.Name ]
            ++ (if database.Spec.Drop then [Call.DropDatabase] else [])
      ∧ (Call.DropDatabase ∈ calls (finalize env (some pg) database).1
          ↔ database.Spec.Drop = true) := by
  unfold finalize
  by_cases hd : database.Spec.Drop = true
  · simp [hd, calls, secretKey]
  · simp [hd, calls, secretKey]

/-- C2 (deletion safety of finalize) at a failing input: `billing` has the type `mysql`, for
which the switch of `Reconcile` has no case, so in a fresh process the package variable holds
no adapter; the resource carries the marker, deletion is requested and `Spec.Drop` is set.
`finalize` looks the secret up and issues its delete, then panics on `db.DropUser`: neither
`DropUser` nor `DropDatabase` is issued, by `finalize` itself and by the pass that calls it,
and with `Spec.Drop` cleared `DropUser` is not issued either. -/
theorem finalize_without_adapter_stops_after_delete :
    IsZero mysqlFinalizingDatabase.ObjectMeta.DeletionTimestamp = false
      ∧ contains mysqlFinalizingDatabase.ObjectMeta.Finalizers myFinalizerName = true
      ∧ mysqlFinalizingDatabase.Spec.Drop = true
      ∧ (finalize (calmEnv mysqlFinalizingDatabase []) none mysqlFinalizingDatabase).1
          = [ ⟨Call.Get ⟨"default", "billing-mysql"⟩, some "not found"⟩,
              ⟨Call.Delete emptySecret, none⟩ ]
      ∧ (match (finalize (calmEnv mysqlFinalizingDatabase []) none mysqlFinalizingDatabase).2 with
          | .panicked => true
          | .returned _ => false) = true
      ∧ Call.DropUser "billing"
          ∉ calls (finalize (calmEnv mysqlFinalizingDatabase []) none mysqlFinalizingDatabase).1
      ∧ Call.DropDatabase
          ∉ calls (finalize (calmEnv mysqlFinalizingDatabase []) none mysqlFinalizingDatabase).1
      ∧ (Reconcile (calmEnv mysqlFinalizingDatabase []) none).trace
          = [ ⟨Call.Get ⟨"default", "billing-mysql"⟩, some "not found"⟩,
              ⟨Call.Delete emptySecret, none⟩ ]
      ∧ (Reconcile (calmEnv mysqlFinalizingDatabase []) none).result = .panic
      ∧ calls
            (finalize (calmEnv mysqlFinalizingDatabase []) none
              { mysqlFinalizingDatabase with
                Spec := { mysqlFinalizingDatabase.Spec with Drop := false } }).1
          = [ Call.Get ⟨"default", "billing-mysql"⟩, Call.Delete emptySecret ] := by
  decide

/-- C5 (no-op on terminal phase): a resource fetched in phase `Terminating` ends the pass
with success, an empty trace (no adapter construction, no backend call, no secret call, no
`Update`) and the package variable untouched. -/
theorem terminating_is_noop (env : Env) (db : Option Postgres) (database : Database)
    (hget : env.Get = .found database) (hphase : database.Status.Phase = "Terminating") :
    Reconcile env db = ⟨[], .ok, db⟩ := by
  unfold Reconcile
  simp [hget, hphase]

/-- The instance of C5 at `orders` in phase `Terminating` with no adapter in the package
variable. -/
theorem terminating_is_noop_witness :
    (calmEnv terminatingDatabase ["bob"]).Get = .found terminatingDatabase
      ∧ terminatingDatabase.Status.Phase = "Terminating"
      ∧ Reconcile (calmEnv terminatingDatabase ["bob"]) none = ⟨[], .ok, none⟩ :=
  ⟨rfl, rfl, terminating_is_noop (calmEnv terminatingDatabase ["bob"]) none
    terminatingDatabase rfl rfl⟩

/-- C3 (finalizer ordering) at a failing input: `orders` has deletion requested and does not
carry the operator's marker; every call succeeds and the database does not exist.  The pass
issues `CreateDatabase` although the marker was absent at the fetch and no `Update` came
before. -/
theorem createDatabase_without_marker :
    contains deletingDatabase.ObjectMeta.Finalizers myFinalizerName = false
      ∧ calls (Reconcile (calmEnv deletingDatabase []) none).trace
          = [ Call.NewDB deletingDatabase, Call.Exists, Call.CreateDatabase, Call.NewUser,
              Call.CreateUser ⟨"orders", "s3cret"⟩,
              Call.Create
                ⟨"orders-postgres", "default",
                  [("database-host", "localhost"), ("database-port", "5432"),
                    ("database-name", "orders"), ("database-user", "orders"),
                    ("database-password", "s3cret")]⟩,
              Call.Update { deletingDatabase with Status := { Phase := "Created" } },
              Call.RoleUsers, Call.Grant "orders", Call.Grant "alice" ] := by
  decide

/-- C7 (deletion without the finalizer) at a failing input: `orders` has deletion requested
and carries only a foreign finalizer; the role has the member `bob`.  The pass falls through
to provisioning and convergence and ends with success. -/
theorem deletion_without_marker_falls_through :
    IsZero heldDatabase.ObjectMeta.DeletionTimestamp = false
      ∧ contains heldDatabase.ObjectMeta.Finalizers myFinalizerName = false
      ∧ (Reconcile (calmEnv heldDatabase ["bob"]) none).result = .ok
      ∧ calls (Reconcile (calmEnv heldDatabase ["bob"]) none).trace
          = [ Call.NewDB heldDatabase, Call.Exists, Call.CreateDatabase, Call.NewUser,
              Call.CreateUser ⟨"orders", "s3cret"⟩,
              Call.Create (newSecret (calmEnv heldDatabase ["bob"]) heldDatabase
                ⟨"orders", "s3cret"⟩),
              Call.Update { heldDatabase with Status := { Phase := "Created" } },
              Call.RoleUsers, Call.Revoke "bob", Call.Grant "orders" ] := by
  decide

/-- C8 (unrecognized backend type) at a failing input: the type `mysql` matches no case of
the switch.  With no adapter in the package variable the pass persists the finalizer and
then panics; with the adapter a previous pass built for `orders` it provisions and converges
`billing` through that adapter and ends with success.  In neither run is an error returned. -/
theorem unrecognized_type_is_not_rejected :
    (Reconcile (calmEnv mysqlDatabase []) none).result = .panic
      ∧ calls (Reconcile (calmEnv mysqlDatabase []) none).trace
          = [ Call.Update
                { mysqlDatabase with
                  ObjectMeta :=
                    { mysqlDatabase.ObjectMeta with Finalizers := ["db.clarizen.cloud"] } } ]
      ∧ (Reconcile (calmEnv mysqlDatabase []) (some (NewDB ordersDatabase))).result = .ok
      ∧ (Reconcile (calmEnv mysqlDatabase []) (some (NewDB ordersDatabase))).db
          = some (NewDB ordersDatabase)
      ∧ Call.Exists
          ∈ calls (Reconcile (calmEnv mysqlDatabase []) (some (NewDB ordersDatabase))).trace
      ∧ Call.CreateDatabase
          ∈ calls (Reconcile (calmEnv mysqlDatabase []) (some (NewDB ordersDatabase))).trace
      ∧ Call.CreateUser ⟨"billing", "s3cret"⟩
          ∈ calls (Reconcile (calmEnv mysqlDatabase []) (some (NewDB ordersDatabase))).trace
      ∧ Call.RoleUsers
          ∈ calls (Reconcile (calmEnv mysqlDatabase []) (some (NewDB ordersDatabase))).trace
      ∧ Call.Grant "billing"
          ∈ calls (Reconcile (calmEnv mysqlDatabase []) (some (NewDB ordersDatabase))).trace := by
  decide

@[simp] theorem calls_nil : calls [] = [] := rfl

@[simp] theorem calls_cons (s : Step) (t : List Step) : calls (s :: t) = s.call :: calls t := rfl

@[simp] theorem calls_append (t1 t2 : List Step) : calls (t1 ++ t2) = calls t1 ++ calls t2 := by
  simp [calls]

/-- C6, as amended (deletion makes forward progress once the adapter is built): for a
resource of type `postgres` whose adapter construction succeeds, with deletion requested,
the finalizer marker present and a phase other than `Terminating`, and whatever the cleanup
steps answer, the pass issues adapter construction, the calls of `finalize`, and then one
`Update` of the resource with the marker removed and phase `Terminating`; it issues no
`CreateDatabase`, `CreateUser`, `Grant` or `Revoke`, and returns what that `Update` returned. -/
theorem deletion_makes_progress (env : Env) (db : Option Postgres) (database : Database)
    (hget : env.Get = .found database)
    (hphase : database.Status.Phase ≠ "Terminating")
    (htype : database.Spec.Type' = "postgres")
    (hnew : env.NewDB = none)
    (hdel : IsZero database.ObjectMeta.DeletionTimestamp = false)
    (hfin : contains database.ObjectMeta.Finalizers myFinalizerName = true) :
    calls (Reconcile env db).trace
        = [ Call.NewDB database,
            Call.Get ⟨database.Namespace, database.Name ++ "-" ++ database.Spec.Type'⟩,
            Call.Delete
              (match env.GetSecret
                  ⟨database.Namespace, database.Name ++ "-" ++ database.Spec.Type'⟩ with
                | .ok s => s
                | .error _ => emptySecret),
            Call.DropUser database.Name ]
          ++ (if database.Spec.Drop then [Call.DropDatabase] else [])
          ++ [ Call.Update
                { database with
                  ObjectMeta :=
                    { database.ObjectMeta with
                      Finalizers := removeString database.ObjectMeta.Finalizers myFinalizerName }
                  Status := { Phase := "Terminating" } } ]
      ∧ contains (removeString database.ObjectMeta.Finalizers myFinalizerName) myFinalizerName
          = false
      ∧ (∀ c ∈ calls (Reconcile env db).trace, buildCall c = false)
      ∧ (Reconcile env db).result
          = outcomeOf (env.Update
              { database with
                ObjectMeta :=
                  { database.ObjectMeta with
                    Finalizers := removeString database.ObjectMeta.Finalizers myFinalizerName }
                Status := { Phase := "Terminating" } }) := by
  have hsel : selectBackend env db database
      = ([⟨.NewDB database, none⟩], some (NewDB database), .next database) := by
    simp [selectBackend, htype, hnew]
  obtain ⟨hf2, hf1⟩ := finalize_shape env (NewDB database) database
  rcases hF : finalize env (some (NewDB database)) database with ⟨tf, cf⟩
  rw [hF] at hf1 hf2
  simp only at hf1 hf2
  subst hf2
  refine ⟨?_, contains_removeString _ _, ?_, ?_⟩
  all_goals
    unfold Reconcile
    simp only [hget, beq_iff_eq, hphase, if_false, hsel]
    unfold finalizerStage
    simp only [hdel, hfin, if_true, Bool.false_eq_true, if_false, hF]
    cases hU : env.Update
        { database with
          ObjectMeta :=
            { database.ObjectMeta with
              Finalizers := removeString database.ObjectMeta.Finalizers myFinalizerName }
          Status := { Phase := "Terminating" } }
  all_goals simp [hf1, outcomeOf, buildCall, hU]
  all_goals (rintro a (⟨-, rfl⟩ | rfl) <;> rfl)

/-- The instance of the amended C6 at `orders` under deletion with its finalizer: the
hypotheses hold and the pass issues no build call. -/
theorem deletion_makes_progress_witness :
    (calmEnv finalizingDatabase []).Get = .found finalizingDatabase
      ∧ finalizingDatabase.Status.Phase ≠ "Terminating"
      ∧ finalizingDatabase.Spec.Type' = "postgres"
      ∧ (calmEnv finalizingDatabase []).NewDB = none
      ∧ IsZero finalizingDatabase.ObjectMeta.DeletionTimestamp = false
      ∧ contains finalizingDatabase.ObjectMeta.Finalizers myFinalizerName = true
      ∧ (∀ c ∈ calls (Reconcile (calmEnv finalizingDatabase []) none).trace,
          buildCall c = false) :=
  ⟨rfl, by decide, rfl, rfl, by decide, by decide,
    (deletion_makes_progress (calmEnv finalizingDatabase []) none finalizingDatabase rfl
      (by decide) rfl rfl (by decide) (by decide)).2.2.1⟩

/-- C6 as stated fails: `orders` has deletion requested, carries the marker and is in phase
`Created`, but adapter construction fails; the pass returns that error after the single
`NewDB` step, so no `Update` is submitted and the marker stays. -/
theorem deletion_blocked_by_adapter_failure :
    IsZero finalizingDatabase.ObjectMeta.DeletionTimestamp = false
      ∧ contains finalizingDatabase.ObjectMeta.Finalizers myFinalizerName = true
      ∧ finalizingDatabase.Status.Phase ≠ "Terminating"
      ∧ (Reconcile (unreachableEnv finalizingDatabase) none).trace
          = [⟨Call.NewDB finalizingDatabase, some "connection refused"⟩]
      ∧ (Reconcile (unreachableEnv finalizingDatabase) none).result
          = .error "connection refused" := by
  decide

/-! ## Finer facts about the sections -/

theorem selectBackend_calls (env : Env) (db : Option Postgres) (d : Database) :
    ∀ s ∈ (selectBackend env db d).1, s.call = Call.NewDB d := by
  unfold selectBackend
  split_ifs <;> try split
  all_goals simp

theorem finalizerStage_live (env : Env) (db : Option Postgres) (d : Database)
    (hlive : IsZero d.ObjectMeta.DeletionTimestamp = true) :
    ∀ s ∈ (finalizerStage env db d).1,
      ∃ obj, s.call = Call.Update obj ∧ obj.Status = d.Status ∧ obj.Spec = d.Spec := by
  unfold finalizerStage
  simp only [hlive, if_true]
  split_ifs
  · split <;> simp
  · simp

theorem provision_existing (env : Env) (pg : Postgres) (d : Database)
    (hex : env.Exists = .ok true) (hphase : d.Status.Phase ≠ "Created") :
    provision env (some pg) d = ([⟨Call.Exists, none⟩], .next d) := by
  unfold provision
  simp [hphase, hex]

theorem provision_exists_mem (env : Env) (db : Option Postgres) (d : Database)
    (h : Call.Exists ∈ calls (provision env db d).1) :
    ∃ pg, db = some pg ∧ d.Status.Phase ≠ "Created" := by
  unfold provision at h
  split_ifs at h with hp
  · cases db with
    | none => simp at h
    | some pg => exact ⟨pg, rfl, by simpa using hp⟩
  · simp at h

theorem converge_membership (env : Env) (db : Option Postgres) (d : Database) :
    ∀ s ∈ (converge env db d).1, setupCall s.call = false := by
  unfold converge
  cases db with
  | none => simp
  | some pg =>
    dsimp only
    split
    · simp [setupCall]
    · intro s hs
      have hc : s.call ∈ calls ([⟨Call.RoleUsers, none⟩]
          ++ (revokeLoop env ([d.Name] ++ d.Spec.Users) 0 _ none).1
          ++ (grantLoop env _ 0 ([d.Name] ++ d.Spec.Users)
              (revokeLoop env ([d.Name] ++ d.Spec.Users) 0 _ none).2).1) :=
        List.mem_map_of_mem _ hs
      simp only [calls_append, calls_cons, calls_nil, revokeLoop_calls, grantLoop_calls,
        List.mem_append, List.mem_singleton, List.mem_map] at hc
      rcases hc with (hc | ⟨u, -, hu⟩) | ⟨u, -, hu⟩
      · rw [hc]; rfl
      · rw [← hu]; rfl
      · rw [← hu]; rfl

theorem converge_lists (env : Env) (pg : Postgres) (d : Database) :
    Call.RoleUsers ∈ calls (converge env (some pg) d).1 := by
  unfold converge
  dsimp only
  split <;> simp

theorem provision_failed_create (env : Env) (db : Option Postgres) (d : Database)
    (secret : Secret) (e : Error)
    (h : (⟨Call.Create secret, some e⟩ : Step) ∈ (provision env db d).1) :
    ∃ password, env.NewUser = .ok password ∧ provision env db d
      = ([⟨Call.Exists, none⟩, ⟨Call.CreateDatabase, none⟩, ⟨Call.NewUser, none⟩,
          ⟨Call.CreateUser ⟨d.Name, password⟩, none⟩, ⟨Call.Create secret, some e⟩],
        .ret .ok) := by
  unfold provision at h ⊢
  split_ifs at h ⊢
  · repeat' (first | split at h | (dsimp only at h; split at h))
    all_goals simp at h
    obtain ⟨h1, h2⟩ := h
    subst h1 h2
    simp_all
  · simp at h


theorem not_mem_calls_of_forall (t : List Step) (c : Call) (h : ∀ s ∈ t, s.call ≠ c) :
    c ∉ calls t := by
  intro hc
  obtain ⟨s, hs, hsc⟩ := List.mem_map.1 hc
  exact h s hs hsc

/-- A pass over a live resource that checks existence and is told the database exists:
adapter construction, at most the finalizer `Update` (status untouched), the existence
check, then the convergence section. -/
theorem Reconcile_existing_shape (env : Env) (db : Option Postgres) (database : Database)
    (hget : env.Get = .found database)
    (hlive : IsZero database.ObjectMeta.DeletionTimestamp = true)
    (hex : env.Exists = .ok true)
    (hchk : Call.Exists ∈ calls (Reconcile env db).trace) :
    ∃ t1 t2 t4, (Reconcile env db).trace = t1 ++ t2 ++ [⟨Call.Exists, none⟩] ++ t4
      ∧ (∀ s ∈ t1, s.call = Call.NewDB database)
      ∧ (∀ s ∈ t2, ∃ obj, s.call = Call.Update obj ∧ obj.Status = database.Status
          ∧ obj.Spec = database.Spec)
      ∧ (∀ s ∈ t4, setupCall s.call = false)
      ∧ Call.RoleUsers ∈ calls t4 := by
  unfold Reconcile at hchk ⊢
  simp only [hget] at hchk ⊢
  split_ifs at hchk ⊢ with hT
  · simp at hchk
  · have s1 := selectBackend_calls env db database
    have n1 := selectBackend_next env db database
    rcases h1 : selectBackend env db database with ⟨t1, db1, f1⟩
    rw [h1] at s1 n1 hchk
    have x1 : Call.Exists ∉ calls t1 :=
      not_mem_calls_of_forall _ _ (fun s hs => by rw [s1 s hs]; simp)
    cases f1 with
    | ret o => exact absurd hchk x1
    | next d1 =>
      have e1 : d1 = database := n1 d1 rfl
      subst e1
      simp only at hchk ⊢
      have s2 := finalizerStage_live env db1 d1 hlive
      have n2 := finalizerStage_next env db1 d1
      rcases h2 : finalizerStage env db1 d1 with ⟨t2, f2⟩
      rw [h2] at s2 n2 hchk
      have x2 : Call.Exists ∉ calls t2 :=
        not_mem_calls_of_forall _ _ (fun s hs => by
          obtain ⟨obj, ho, -⟩ := s2 s hs
          rw [ho]; simp)
      cases f2 with
      | ret o =>
        simp only [calls_append, List.mem_append] at hchk
        rcases hchk with h | h
        · exact absurd h x1
        · exact absurd h x2
      | next d2 =>
        obtain ⟨-, e2, -, -, -⟩ := n2 d2 rfl
        simp only at hchk ⊢
        have m3 := provision_exists_mem env db1 d2
        rcases h3 : provision env db1 d2 with ⟨t3, f3⟩
        rw [h3] at hchk
        have hin : Call.Exists ∈ calls t3 := by
          cases f3 with
          | ret o =>
            simp only at hchk
            simp only [calls_append, List.mem_append] at hchk
            rcases hchk with (h | h) | h
            · exact absurd h x1
            · exact absurd h x2
            · exact h
          | next d3 =>
            simp only at hchk
            have s4 := converge_membership env db1 d3
            simp only [calls_append, List.mem_append] at hchk
            rcases hchk with ((h | h) | h) | h
            · exact absurd h x1
            · exact absurd h x2
            · exact h
            · obtain ⟨s, hs, hsc⟩ := List.mem_map.1 h
              have := s4 s hs
              rw [hsc] at this
              simp [setupCall] at this
        rw [h3] at m3
        obtain ⟨pg, hpg, hph⟩ := m3 hin
        subst hpg
        rw [provision_existing env pg d2 hex hph] at h3
        simp only [Prod.mk.injEq] at h3
        obtain ⟨ht3, hf3⟩ := h3
        subst hf3
        subst ht3
        simp only
        exact ⟨t1, t2, (converge env (some pg) d2).1, rfl, s1,
          s2, converge_membership env (some pg) d2, converge_lists env pg d2⟩

/-- C9, as amended (a pre-existing database is left alone): for a resource that is not being
deleted and whose phase is not `Created`, when the existence check is reached and reports
that the database exists, the pass issues no `CreateDatabase`, no `CreateUser` and no secret
`Create`; every `Update` it issues carries the fetched status, so the phase is not set to
`Created`; and the pass goes on to list the role members. -/
theorem existing_database_is_left_alone (env : Env) (db : Option Postgres)
    (database : Database)
    (hget : env.Get = .found database)
    (hlive : IsZero database.ObjectMeta.DeletionTimestamp = true)
    (hphase : database.Status.Phase ≠ "Created")
    (hex : env.Exists = .ok true)
    (hchk : Call.Exists ∈ calls (Reconcile env db).trace) :
    Call.CreateDatabase ∉ calls (Reconcile env db).trace
      ∧ (∀ user, Call.CreateUser user ∉ calls (Reconcile env db).trace)
      ∧ (∀ secret, Call.Create secret ∉ calls (Reconcile env db).trace)
      ∧ (∀ obj, Call.Update obj ∈ calls (Reconcile env db).trace
          → obj.Status.Phase = database.Status.Phase ∧ obj.Status.Phase ≠ "Created")
      ∧ Call.RoleUsers ∈ calls (Reconcile env db).trace := by
  obtain ⟨t1, t2, t4, htr, h1, h2, h4, hru⟩ :=
    Reconcile_existing_shape env db database hget hlive hex hchk
  rw [htr]
  have key : ∀ c ∈ calls (t1 ++ t2 ++ [⟨Call.Exists, none⟩] ++ t4),
      c = Call.NewDB database ∨ (∃ obj, c = Call.Update obj ∧ obj.Status = database.Status)
        ∨ c = Call.Exists ∨ setupCall c = false := by
    intro c hc
    obtain ⟨s, hs, hsc⟩ := List.mem_map.1 hc
    simp only [List.mem_append, List.mem_singleton] at hs
    rcases hs with ((hs | hs) | hs) | hs
    · exact Or.inl (hsc ▸ h1 s hs)
    · obtain ⟨obj, ho, hst, -⟩ := h2 s hs
      exact Or.inr (Or.inl ⟨obj, hsc ▸ ho, hst⟩)
    · subst hs; exact Or.inr (Or.inr (Or.inl hsc.symm))
    · exact Or.inr (Or.inr (Or.inr (hsc ▸ h4 s hs)))
  refine ⟨?_, ?_, ?_, ?_, ?_⟩
  · intro hc
    rcases key _ hc with h | ⟨obj, h, -⟩ | h | h <;> simp [setupCall] at h
  · intro user hc
    rcases key _ hc with h | ⟨obj, h, -⟩ | h | h <;> simp [setupCall] at h
  · intro secret hc
    rcases key _ hc with h | ⟨obj, h, -⟩ | h | h <;> simp [setupCall] at h
  · intro obj hc
    rcases key _ hc with h | ⟨obj', h, hst⟩ | h | h
    · simp at h
    · simp only [Call.Update.injEq] at h
      subst h
      rw [hst]
      exact ⟨rfl, hphase⟩
    · simp at h
    · simp [setupCall] at h
  · simp only [calls_append, List.mem_append]
    exact Or.inr hru


/-- The instance of the amended C9 at `orders` (no finalizer yet) with the database already
present: the hypotheses hold, no `CreateDatabase` is issued and the role members are listed. -/
theorem existing_database_is_left_alone_witness :
    (existingEnv ordersDatabase []).Get = .found ordersDatabase
      ∧ IsZero ordersDatabase.ObjectMeta.DeletionTimestamp = true
      ∧ ordersDatabase.Status.Phase ≠ "Created"
      ∧ (existingEnv ordersDatabase []).Exists = .ok true
      ∧ Call.Exists ∈ calls (Reconcile (existingEnv ordersDatabase []) none).trace
      ∧ Call.CreateDatabase ∉ calls (Reconcile (existingEnv ordersDatabase []) none).trace
      ∧ Call.RoleUsers ∈ calls (Reconcile (existingEnv ordersDatabase []) none).trace :=
  ⟨rfl, by decide, by decide, rfl, by decide,
    (existing_database_is_left_alone (existingEnv ordersDatabase []) none ordersDatabase rfl
      (by decide) (by decide) rfl (by decide)).1,
    (existing_database_is_left_alone (existingEnv ordersDatabase []) none ordersDatabase rfl
      (by decide) (by decide) rfl (by decide)).2.2.2.2⟩

/-- C9 as stated fails: `orders` is not being deleted, its phase is not `Created`, and the
existence check reports the database; the whole pass is adapter construction, the existence
check and the role-member listing.  No `Update` is issued, so the phase is not set to
`Created`. -/
theorem existing_database_never_marked_created :
    IsZero registeredDatabase.ObjectMeta.DeletionTimestamp = true
      ∧ registeredDatabase.Status.Phase ≠ "Created"
      ∧ (existingEnv registeredDatabase ["orders", "alice"]).Exists = .ok true
      ∧ (Reconcile (existingEnv registeredDatabase ["orders", "alice"]) none).trace
          = [ ⟨Call.NewDB registeredDatabase, none⟩, ⟨Call.Exists, none⟩,
              ⟨Call.RoleUsers, none⟩ ]
      ∧ (Reconcile (existingEnv registeredDatabase ["orders", "alice"]) none).result = .ok :=
  ⟨by decide, by decide, rfl, by decide, by decide⟩

/-- A pass over a live resource in which a secret `Create` failed: adapter construction, at
most the finalizer `Update` (status untouched), the four provisioning steps, and the failed
`Create` as the last step; the pass returns nil. -/
theorem Reconcile_failed_create_shape (env : Env) (db : Option Postgres)
    (database : Database) (secret : Secret) (e : Error)
    (hget : env.Get = .found database)
    (hlive : IsZero database.ObjectMeta.DeletionTimestamp = true)
    (hfail : (⟨Call.Create secret, some e⟩ : Step) ∈ (Reconcile env db).trace) :
    ∃ t1 t2 password, env.NewUser = .ok password ∧ (Reconcile env db).trace
        = t1 ++ t2 ++ [⟨Call.Exists, none⟩, ⟨Call.CreateDatabase, none⟩, ⟨Call.NewUser, none⟩,
            ⟨Call.CreateUser ⟨database.Name, password⟩, none⟩, ⟨Call.Create secret, some e⟩]
      ∧ (∀ s ∈ t1, s.call = Call.NewDB database)
      ∧ (∀ s ∈ t2, ∃ obj, s.call = Call.Update obj ∧ obj.Status = database.Status
          ∧ obj.Spec = database.Spec)
      ∧ (Reconcile env db).result = .ok := by
  unfold Reconcile at hfail ⊢
  simp only [hget] at hfail ⊢
  split_ifs at hfail ⊢ with hT
  · simp at hfail
  · have s1 := selectBackend_calls env db database
    have n1 := selectBackend_next env db database
    rcases h1 : selectBackend env db database with ⟨t1, db1, f1⟩
    rw [h1] at s1 n1 hfail
    have x1 : (⟨Call.Create secret, some e⟩ : Step) ∉ t1 := fun h => by
      have := s1 _ h
      simp at this
    cases f1 with
    | ret o => exact absurd hfail x1
    | next d1 =>
      have e1 : d1 = database := n1 d1 rfl
      subst e1
      simp only at hfail ⊢
      have s2 := finalizerStage_live env db1 d1 hlive
      have n2 := finalizerStage_next env db1 d1
      rcases h2 : finalizerStage env db1 d1 with ⟨t2, f2⟩
      rw [h2] at s2 n2 hfail
      have x2 : (⟨Call.Create secret, some e⟩ : Step) ∉ t2 := fun h => by
        obtain ⟨obj, ho, -⟩ := s2 _ h
        simp at ho
      cases f2 with
      | ret o =>
        simp only [List.mem_append] at hfail
        rcases hfail with h | h
        · exact absurd h x1
        · exact absurd h x2
      | next d2 =>
        obtain ⟨-, -, e2, -, -⟩ := n2 d2 rfl
        simp only at hfail ⊢
        have m3 := provision_failed_create env db1 d2 secret e
        rcases h3 : provision env db1 d2 with ⟨t3, f3⟩
        rw [h3] at hfail
        have hin : (⟨Call.Create secret, some e⟩ : Step) ∈ t3 := by
          cases f3 with
          | ret o =>
            simp only at hfail
            simp only [List.mem_append] at hfail
            rcases hfail with (h | h) | h
            · exact absurd h x1
            · exact absurd h x2
            · exact h
          | next d3 =>
            simp only at hfail
            have s4 := converge_membership env db1 d3
            simp only [List.mem_append] at hfail
            rcases hfail with ((h | h) | h) | h
            · exact absurd h x1
            · exact absurd h x2
            · exact h
            · have := s4 _ h
              simp [setupCall] at this
        rw [h3] at m3
        obtain ⟨password, hpw, hp⟩ := m3 hin
        simp only [Prod.mk.injEq] at hp
        obtain ⟨ht3, hf3⟩ := hp
        subst hf3
        subst ht3
        simp only
        refine ⟨t1, t2, password, hpw, ?_, s1, s2, trivial⟩
        rw [show d2.Name = d1.Name from e2]

/-- C10, as amended (a failed secret write ends the pass with success): for a resource that
is not being deleted, when the secret `Create` failed, it was preceded by the successful
existence check, `CreateDatabase`, password generation and `CreateUser`, it is the last step
of the pass, and the pass returns nil: no `DropDatabase`, no `DropUser`, no role-member
listing, no `Grant`, no `Revoke`, and no `Update` that changes the status. -/
theorem failed_secret_write_ends_the_pass (env : Env) (db : Option Postgres)
    (database : Database) (secret : Secret) (e : Error)
    (hget : env.Get = .found database)
    (hlive : IsZero database.ObjectMeta.DeletionTimestamp = true)
    (hfail : (⟨Call.Create secret, some e⟩ : Step) ∈ (Reconcile env db).trace) :
    (Reconcile env db).result = .ok
      ∧ (∃ pre password, env.NewUser = .ok password ∧ (Reconcile env db).trace
          = pre ++ [⟨Call.Exists, none⟩, ⟨Call.CreateDatabase, none⟩, ⟨Call.NewUser, none⟩,
              ⟨Call.CreateUser ⟨database.Name, password⟩, none⟩,
              ⟨Call.Create secret, some e⟩])
      ∧ Call.DropDatabase ∉ calls (Reconcile env db).trace
      ∧ (∀ user, Call.DropUser user ∉ calls (Reconcile env db).trace)
      ∧ (∀ c ∈ calls (Reconcile env db).trace, setupCall c = true)
      ∧ (∀ obj, Call.Update obj ∈ calls (Reconcile env db).trace
          → obj.Status = database.Status) := by
  obtain ⟨t1, t2, password, hpw, htr, h1, h2, hres⟩ :=
    Reconcile_failed_create_shape env db database secret e hget hlive hfail
  have key : ∀ c ∈ calls (Reconcile env db).trace,
      c = Call.NewDB database ∨ (∃ obj, c = Call.Update obj ∧ obj.Status = database.Status)
        ∨ c = Call.Exists ∨ c = Call.CreateDatabase ∨ c = Call.NewUser
        ∨ c = Call.CreateUser ⟨database.Name, password⟩ ∨ c = Call.Create secret := by
    intro c hc
    rw [htr] at hc
    obtain ⟨s, hs, hsc⟩ := List.mem_map.1 hc
    simp only [List.mem_append, List.mem_cons, List.mem_singleton, List.not_mem_nil,
      or_false] at hs
    rcases hs with (hs | hs) | hs
    · exact Or.inl (hsc ▸ h1 s hs)
    · obtain ⟨obj, ho, hst, -⟩ := h2 s hs
      exact Or.inr (Or.inl ⟨obj, hsc ▸ ho, hst⟩)
    · rcases hs with hs | hs | hs | hs | hs <;> subst hs <;> simp at hsc <;> simp [← hsc]
  refine ⟨hres, ⟨t1 ++ t2, password, hpw, htr⟩, ?_, ?_, ?_, ?_⟩
  · intro hc
    rcases key _ hc with h | ⟨obj, h, -⟩ | h | h | h | h | h <;> simp at h
  · intro user hc
    rcases key _ hc with h | ⟨obj, h, -⟩ | h | h | h | h | h <;> simp at h
  · intro c hc
    rcases key _ hc with h | ⟨obj, h, -⟩ | h | h | h | h | h <;> subst h <;> rfl
  · intro obj hc
    rcases key _ hc with h | ⟨obj', h, hst⟩ | h | h | h | h | h
    · simp at h
    · simp only [Call.Update.injEq] at h
      subst h
      exact hst
    all_goals simp at h

/-- The instance of the amended C10 at `orders` with the finalizer in place, the database
absent and the secret write failing: the hypotheses hold and the pass returns nil. -/
theorem failed_secret_write_ends_the_pass_witness :
    (secretFailEnv registeredDatabase []).Get = .found registeredDatabase
      ∧ IsZero registeredDatabase.ObjectMeta.DeletionTimestamp = true
      ∧ (⟨Call.Create (newSecret (secretFailEnv registeredDatabase []) registeredDatabase
            ⟨"orders", "s3cret"⟩), some "forbidden"⟩ : Step)
          ∈ (Reconcile (secretFailEnv registeredDatabase []) none).trace
      ∧ (Reconcile (secretFailEnv registeredDatabase []) none).result = .ok :=
  ⟨rfl, by decide, by decide,
    (failed_secret_write_ends_the_pass (secretFailEnv registeredDatabase []) none
      registeredDatabase
      (newSecret (secretFailEnv registeredDatabase []) registeredDatabase ⟨"orders", "s3cret"⟩)
      "forbidden" rfl (by decide) (by decide)).1⟩

/-- C10 as stated fails: `orders` is new, the database does not exist, `CreateDatabase` and
`CreateUser` succeed and the secret write fails; the pass stops at the failed `Create` and
returns nil, so the role members are not listed and nothing is granted, although the role
is empty and `orders` and `alice` are both due a grant. -/
theorem failed_secret_write_skips_convergence :
    (calls (Reconcile (secretFailEnv ordersDatabase []) none).trace)
        = [ Call.NewDB ordersDatabase,
            Call.Update
              { ordersDatabase with
                ObjectMeta :=
                  { ordersDatabase.ObjectMeta with Finalizers := ["db.clarizen.cloud"] } },
            Call.Exists, Call.CreateDatabase, Call.NewUser,
            Call.CreateUser ⟨"orders", "s3cret"⟩,
            Call.Create (newSecret (secretFailEnv ordersDatabase []) ordersDatabase
              ⟨"orders", "s3cret"⟩) ]
      ∧ (secretFailEnv ordersDatabase []).Create
            (newSecret (secretFailEnv ordersDatabase []) ordersDatabase ⟨"orders", "s3cret"⟩)
          = some "forbidden"
      ∧ Call.RoleUsers ∉ calls (Reconcile (secretFailEnv ordersDatabase []) none).trace
      ∧ Call.Grant "orders" ∉ calls (Reconcile (secretFailEnv ordersDatabase []) none).trace
      ∧ (Reconcile (secretFailEnv ordersDatabase []) none).result = .ok := by
  decide

/-! ## Two passes in a row -/

theorem storedAfter_append (d : Database) (t1 t2 : List Step) :
    storedAfter d (t1 ++ t2) = storedAfter (storedAfter d t1) t2 := by
  simp [storedAfter, List.foldl_append]

theorem storedAfter_of_no_update (d : Database) (t : List Step)
    (h : ∀ s ∈ t, ∀ obj, s.call ≠ Call.Update obj) : storedAfter d t = d := by
  induction t generalizing d with
  | nil => rfl
  | cons s t ih =>
    have hs := h s (List.mem_cons_self _ _)
    have ht : ∀ s' ∈ t, ∀ obj, s'.call ≠ Call.Update obj :=
      fun s' hs' => h s' (List.mem_cons_of_mem _ hs')
    simp only [storedAfter, List.foldl_cons]
    have : (match s.call, s.err with
        | Call.Update obj, none => obj
        | _, _ => d) = d := by
      split
      · rename_i obj hc _
        exact absurd hc (hs obj)
      · rfl
    rw [this]
    exact ih d ht

theorem existsAfter_of_no_drop (t : List Step)
    (h : ∀ s ∈ t, s.call ≠ Call.DropDatabase) : existsAfter true t = true := by
  induction t with
  | nil => rfl
  | cons s t ih =>
    have hs := h s (List.mem_cons_self _ _)
    have ht : ∀ s' ∈ t, s'.call ≠ Call.DropDatabase :=
      fun s' hs' => h s' (List.mem_cons_of_mem _ hs')
    simp only [existsAfter, List.foldl_cons]
    have : (match s.call, s.err with
        | Call.CreateDatabase, none => true
        | Call.DropDatabase, none => false
        | _, _ => true) = true := by
      split
      · rfl
      · rename_i hc _
        exact absurd hc hs
      · rfl
    rw [this]
    exact ih ht

/-- Registration on a live resource when every step succeeds: control continues with a
resource that carries the marker, and that resource is what the store holds. -/
theorem finalizerStage_live_ok (env : Env) (db : Option Postgres) (d : Database)
    (hlive : IsZero d.ObjectMeta.DeletionTimestamp = true)
    (hall : ∀ s ∈ (finalizerStage env db d).1, s.err = none) :
    ∃ d', (finalizerStage env db d).2 = .next d'
      ∧ storedAfter d (finalizerStage env db d).1 = d'
      ∧ contains d'.ObjectMeta.Finalizers myFinalizerName = true := by
  unfold finalizerStage at hall ⊢
  simp only [hlive, if_true] at hall ⊢
  split_ifs at hall ⊢ with hc
  · split at hall
    · simp at hall
    · rename_i hU
      simp only [hU]
      refine ⟨_, rfl, rfl, ?_⟩
      rw [contains_iff]
      simp
  · refine ⟨d, rfl, rfl, ?_⟩
    simpa using hc

/-- Provisioning when every step succeeds. -/
theorem provision_ok (env : Env) (db : Option Postgres) (d : Database)
    (hall : ∀ s ∈ (provision env db d).1, s.err = none) :
    (provision env db d).2 = .ret .panic
      ∨ ∃ d', (provision env db d).2 = .next d'
          ∧ storedAfter d (provision env db d).1 = d'
          ∧ d'.ObjectMeta = d.ObjectMeta ∧ d'.Spec = d.Spec
          ∧ (d'.Status.Phase ≠ "Created" → env.Exists = .ok true) := by
  unfold provision at hall ⊢
  split_ifs at hall ⊢ with hp
  · repeat' (first | split at hall | (dsimp only at hall; split at hall))
    all_goals simp at hall
    all_goals simp_all [storedAfter]
  · refine Or.inr ⟨d, rfl, rfl, rfl, rfl, ?_⟩
    intro h
    simp at hp
    exact absurd hp h

theorem provision_no_drop (env : Env) (db : Option Postgres) (d : Database) :
    ∀ s ∈ (provision env db d).1, s.call ≠ Call.DropDatabase := by
  unfold provision
  split_ifs
  · repeat' (first | split | (dsimp only; split))
    all_goals simp
  · simp

theorem finalizerStage_registered (env : Env) (db : Option Postgres) (d : Database)
    (hlive : IsZero d.ObjectMeta.DeletionTimestamp = true)
    (hfin : contains d.ObjectMeta.Finalizers myFinalizerName = true) :
    finalizerStage env db d = ([], .next d) := by
  unfold finalizerStage
  simp [hlive, hfin]

theorem provision_quiet (env : Env) (db : Option Postgres) (d : Database)
    (hex : d.Status.Phase ≠ "Created" → ∀ e, env.Exists = .ok e → e = true) :
    (∀ s ∈ (provision env db d).1, s.call = Call.Exists)
      ∧ ∀ d', (provision env db d).2 = .next d' → d' = d := by
  unfold provision
  split_ifs with hp
  · have hp' : d.Status.Phase ≠ "Created" := by simpa using hp
    cases db with
    | none => simp
    | some pg =>
      dsimp only
      cases hE : env.Exists with
      | error e => simp
      | ok b =>
        have hb := hex hp' b hE
        subst hb
        simp
  · simp

theorem converge_quiet (env : Env) (db : Option Postgres) (d : Database)
    (hm : ∀ C, env.RoleUsers = .ok C → ∀ x, x ∈ C ↔ x = d.Name ∨ x ∈ d.Spec.Users) :
    ∀ c ∈ calls (converge env db d).1, c = Call.RoleUsers := by
  unfold converge
  cases db with
  | none => simp
  | some pg =>
    dsimp only
    cases hR : env.RoleUsers with
    | error e => simp
    | ok C =>
      have hC := hm C hR
      have hu : ∀ x, x ∈ [d.Name] ++ d.Spec.Users ↔ x ∈ C := by
        intro x
        rw [hC x]; simp
      have r0 : List.filter (fun u => !contains ([d.Name] ++ d.Spec.Users) u) C = [] := by
        rw [List.filter_eq_nil_iff]
        intro x hx
        have : contains ([d.Name] ++ d.Spec.Users) x = true :=
          (contains_iff _ _).2 ((hu x).2 hx)
        rw [this]; decide
      have g0 : List.filter (fun u => !contains C u) ([d.Name] ++ d.Spec.Users) = [] := by
        rw [List.filter_eq_nil_iff]
        intro x hx
        have : contains C x = true := (contains_iff _ _).2 ((hu x).1 hx)
        rw [this]; decide
      simp only [calls_append, calls_cons, calls_nil, revokeLoop_calls, grantLoop_calls, r0, g0,
        List.map_nil, List.append_nil, List.mem_singleton]
      exact fun c hc => hc

/-- A pass over a live resource that already carries the marker, against a backend that
reports the database as existing whenever asked and whose role members are exactly the
declared ones: only adapter construction, the existence check and the listing are issued. -/
theorem Reconcile_quiet (env : Env) (db : Option Postgres) (d : Database)
    (hget : env.Get = .found d)
    (hlive : IsZero d.ObjectMeta.DeletionTimestamp = true)
    (hfin : contains d.ObjectMeta.Finalizers myFinalizerName = true)
    (hex : d.Status.Phase ≠ "Created" → ∀ e, env.Exists = .ok e → e = true)
    (hm : ∀ C, env.RoleUsers = .ok C → ∀ x, x ∈ C ↔ x = d.Name ∨ x ∈ d.Spec.Users) :
    ∀ c ∈ calls (Reconcile env db).trace,
      c = Call.NewDB d ∨ c = Call.Exists ∨ c = Call.RoleUsers := by
  unfold Reconcile
  simp only [hget]
  split_ifs with hT
  · simp
  · have s1 := selectBackend_calls env db d
    have n1 := selectBackend_next env db d
    rcases h1 : selectBackend env db d with ⟨t1, db1, f1⟩
    rw [h1] at s1 n1
    have c1 : ∀ c ∈ calls t1, c = Call.NewDB d := by
      intro c hc
      obtain ⟨s, hs, hsc⟩ := List.mem_map.1 hc
      exact hsc ▸ s1 s hs
    cases f1 with
    | ret o =>
      intro c hc
      exact Or.inl (c1 c hc)
    | next d1 =>
      have e1 : d1 = d := n1 d1 rfl
      subst e1
      simp only [finalizerStage_registered env db1 d1 hlive hfin, List.append_nil]
      obtain ⟨s3, n3⟩ := provision_quiet env db1 d1 hex
      rcases h3 : provision env db1 d1 with ⟨t3, f3⟩
      rw [h3] at s3 n3
      have c3 : ∀ c ∈ calls t3, c = Call.Exists := by
        intro c hc
        obtain ⟨s, hs, hsc⟩ := List.mem_map.1 hc
        exact hsc ▸ s3 s hs
      cases f3 with
      | ret o =>
        intro c hc
        simp only [calls_append, List.mem_append] at hc
        rcases hc with hc | hc
        · exact Or.inl (c1 c hc)
        · exact Or.inr (Or.inl (c3 c hc))
      | next d3 =>
        have e3 : d3 = d1 := n3 d3 rfl
        subst e3
        have c4 := converge_quiet env db1 d3 hm
        intro c hc
        simp only [calls_append, List.mem_append] at hc
        rcases hc with (hc | hc) | hc
        · exact Or.inl (c1 c hc)
        · exact Or.inr (Or.inl (c3 c hc))
        · exact Or.inr (Or.inr (c4 c hc))

theorem selectBackend_ret (env : Env) (db : Option Postgres) (d : Database) (o : Outcome)
    (h : (selectBackend env db d).2.2 = .ret o) : o ≠ .ok := by
  unfold selectBackend at h
  split_ifs at h <;> try split at h
  all_goals simp at h
  all_goals (subst h; simp)

theorem converge_ok (env : Env) (db : Option Postgres) (d : Database)
    (h : (converge env db d).2 = .ok) : ∃ pg, db = some pg := by
  cases db with
  | none => simp [converge] at h
  | some pg => exact ⟨pg, rfl⟩

theorem Reconcile_of_select_ret (env : Env) (db : Option Postgres) (d : Database)
    (t1 : List Step) (db1 : Option Postgres) (o : Outcome)
    (hget : env.Get = .found d) (hT : d.Status.Phase ≠ "Terminating")
    (h1 : selectBackend env db d = (t1, db1, .ret o)) :
    Reconcile env db = ⟨t1, o, db1⟩ := by
  unfold Reconcile
  simp [hget, hT, h1]

theorem Reconcile_of_stage_ret (env : Env) (db : Option Postgres) (d : Database)
    (t1 : List Step) (db1 : Option Postgres) (d1 : Database) (t2 : List Step) (o : Outcome)
    (hget : env.Get = .found d) (hT : d.Status.Phase ≠ "Terminating")
    (h1 : selectBackend env db d = (t1, db1, .next d1))
    (h2 : finalizerStage env db1 d1 = (t2, .ret o)) :
    Reconcile env db = ⟨t1 ++ t2, o, db1⟩ := by
  unfold Reconcile
  simp [hget, hT, h1, h2]

theorem Reconcile_of_provision_ret (env : Env) (db : Option Postgres) (d : Database)
    (t1 : List Step) (db1 : Option Postgres) (d1 : Database) (t2 : List Step) (d2 : Database)
    (t3 : List Step) (o : Outcome)
    (hget : env.Get = .found d) (hT : d.Status.Phase ≠ "Terminating")
    (h1 : selectBackend env db d = (t1, db1, .next d1))
    (h2 : finalizerStage env db1 d1 = (t2, .next d2))
    (h3 : provision env db1 d2 = (t3, .ret o)) :
    Reconcile env db = ⟨t1 ++ t2 ++ t3, o, db1⟩ := by
  unfold Reconcile
  simp [hget, hT, h1, h2, h3]

theorem Reconcile_of_converge (env : Env) (db : Option Postgres) (d : Database)
    (t1 : List Step) (db1 : Option Postgres) (d1 : Database) (t2 : List Step) (d2 : Database)
    (t3 : List Step) (d3 : Database)
    (hget : env.Get = .found d) (hT : d.Status.Phase ≠ "Terminating")
    (h1 : selectBackend env db d = (t1, db1, .next d1))
    (h2 : finalizerStage env db1 d1 = (t2, .next d2))
    (h3 : provision env db1 d2 = (t3, .next d3)) :
    Reconcile env db
      = ⟨t1 ++ t2 ++ t3 ++ (converge env db1 d3).1, (converge env db1 d3).2, db1⟩ := by
  unfold Reconcile
  simp [hget, hT, h1, h2, h3]

/-- What a live pass leaves behind when it returns nil and every step it issued succeeded:
the stored resource keeps name, spec and deletion timestamp and carries the marker; if its
phase is not `Created` the existence check had answered true; the pass issued no
`DropDatabase` and it listed the role members. -/
theorem Reconcile_live_ok (env : Env) (db : Option Postgres) (d : Database)
    (hget : env.Get = .found d)
    (hlive : IsZero d.ObjectMeta.DeletionTimestamp = true)
    (hT : d.Status.Phase ≠ "Terminating")
    (hres : (Reconcile env db).result = .ok)
    (hall : ∀ s ∈ (Reconcile env db).trace, s.err = none) :
    (storedAfter d (Reconcile env db).trace).Spec = d.Spec
      ∧ (storedAfter d (Reconcile env db).trace).Name = d.Name
      ∧ (storedAfter d (Reconcile env db).trace).ObjectMeta.DeletionTimestamp
          = d.ObjectMeta.DeletionTimestamp
      ∧ contains (storedAfter d (Reconcile env db).trace).ObjectMeta.Finalizers
          myFinalizerName = true
      ∧ ((storedAfter d (Reconcile env db).trace).Status.Phase ≠ "Created"
          → env.Exists = .ok true)
      ∧ (∀ s ∈ (Reconcile env db).trace, s.call ≠ Call.DropDatabase)
      ∧ Call.RoleUsers ∈ calls (Reconcile env db).trace := by
  rcases h1 : selectBackend env db d with ⟨t1, db1, f1⟩
  have s1 := selectBackend_calls env db d
  rw [h1] at s1
  simp only at s1
  cases f1 with
  | ret o =>
    rw [Reconcile_of_select_ret env db d t1 db1 o hget hT h1] at hres
    exact absurd hres (selectBackend_ret env db d o (by rw [h1]))
  | next d1 =>
    have e1 : d1 = d := selectBackend_next env db d d1 (by rw [h1])
    subst e1
    have st1 : storedAfter d1 t1 = d1 :=
      storedAfter_of_no_update _ _ (fun s hs obj => by rw [s1 s hs]; simp)
    rcases h2 : finalizerStage env db1 d1 with ⟨t2, f2⟩
    have u2 := finalizerStage_live env db1 d1 hlive
    have k2 := finalizerStage_live_ok env db1 d1 hlive
    rw [h2] at u2 k2
    simp only at u2 k2
    cases f2 with
    | ret o =>
      rw [Reconcile_of_stage_ret env db d1 t1 db1 d1 t2 o hget hT h1 h2] at hall
      obtain ⟨d', hf, -⟩ := k2 (fun s hs => hall s (List.mem_append_right _ hs))
      simp at hf
    | next d2 =>
      obtain ⟨sp2, -, nm2, -, dt2⟩ := finalizerStage_next env db1 d1 d2 (by rw [h2])
      rcases h3 : provision env db1 d2 with ⟨t3, f3⟩
      have k3 := provision_ok env db1 d2
      have x3 := provision_no_drop env db1 d2
      rw [h3] at k3 x3
      simp only at k3 x3
      cases f3 with
      | ret o =>
        rw [Reconcile_of_provision_ret env db d1 t1 db1 d1 t2 d2 t3 o hget hT h1 h2 h3]
          at hall hres
        rcases k3 (fun s hs => hall s (List.mem_append_right _ hs)) with hp | ⟨d', hf, -⟩
        · simp only [Flow.ret.injEq] at hp
          subst hp
          simp at hres
        · simp at hf
      | next d3 =>
        rw [Reconcile_of_converge env db d1 t1 db1 d1 t2 d2 t3 d3 hget hT h1 h2 h3]
          at hall hres ⊢
        simp only at hall hres ⊢
        obtain ⟨d', hf2, st2, fin2⟩ := k2 (fun s hs => hall s (by simp [hs]))
        simp only [Flow.next.injEq] at hf2
        subst hf2
        rcases k3 (fun s hs => hall s (by simp [hs])) with hp | ⟨d', hf3, st3, om3, sp3, ex3⟩
        · simp at hp
        · simp only [Flow.next.injEq] at hf3
          subst hf3
          obtain ⟨pg, hpg⟩ := converge_ok env db1 d3 hres
          subst hpg
          have m4 := converge_membership env (some pg) d3
          have l4 := converge_lists env pg d3
          have st4 : storedAfter d3 (converge env (some pg) d3).1 = d3 :=
            storedAfter_of_no_update _ _ (fun s hs obj hc => by
              have := m4 s hs
              rw [hc] at this
              simp [setupCall] at this)
          have hst : storedAfter d1 (t1 ++ t2 ++ t3 ++ (converge env (some pg) d3).1)
              = d3 := by
            rw [storedAfter_append, storedAfter_append, storedAfter_append, st1, st2, st3, st4]
          rw [hst]
          refine ⟨sp3.trans sp2, ?_, ?_, ?_, ex3, ?_, ?_⟩
          · show d3.ObjectMeta.Name = d1.ObjectMeta.Name
            rw [om3]; exact nm2
          · rw [om3]; exact dt2
          · rw [om3]; exact fin2
          · intro s hs
            simp only [List.mem_append] at hs
            rcases hs with ((hs | hs) | hs) | hs
            · rw [s1 s hs]; simp
            · obtain ⟨obj, ho, -⟩ := u2 s hs
              rw [ho]; simp
            · exact x3 s hs
            · intro hc
              have := m4 s hs
              rw [hc] at this
              simp [setupCall] at this
          · simp only [calls_append, List.mem_append]
            exact Or.inr l4

/-- Membership after a pass that listed the role members and whose steps all succeeded. -/
theorem Reconcile_members_ok (env : Env) (db : Option Postgres) (d : Database)
    (hget : env.Get = .found d)
    (hreach : Call.RoleUsers ∈ calls (Reconcile env db).trace)
    (hall : ∀ s ∈ (Reconcile env db).trace, s.err = none) :
    ∃ C, env.RoleUsers = .ok C
      ∧ ∀ x, x ∈ membersAfter C (Reconcile env db).trace ↔ x = d.Name ∨ x ∈ d.Spec.Users := by
  have hreach' : ∃ s ∈ (Reconcile env db).trace, s.call = Call.RoleUsers := by
    obtain ⟨s, hs, hc⟩ := List.mem_map.1 hreach
    exact ⟨s, hs, hc⟩
  obtain ⟨pre, pg, d', hpre, hspec, hname, htr, -⟩ := Reconcile_reach env db d hget hreach'
  rw [htr] at hall ⊢
  cases hR : env.RoleUsers with
  | error e =>
    have := hall ⟨Call.RoleUsers, some e⟩ (by simp [converge, hR])
    simp at this
  | ok C =>
    refine ⟨C, rfl, fun x => ?_⟩
    rw [membersAfter_append, membersAfter_setup C pre hpre]
    have := converge_members env pg d' C hR
      (fun s hs _ => hall s (List.mem_append_right _ hs)) x
    rw [this, hspec]
    show x = d'.ObjectMeta.Name ∨ _ ↔ x = d.ObjectMeta.Name ∨ _
    rw [show d'.ObjectMeta.Name = d.ObjectMeta.Name from hname]

/-- C4, as amended (idempotence after a pass without failures): for a resource that is not
being deleted, if a first pass returns nil and every call it issued succeeded, and a second
pass fetches the resource as the store then holds it, is answered by a backend in the state
the first pass left (existence and role membership as changed by the successful
`CreateDatabase`, `DropDatabase`, `Grant` and `Revoke` calls), and starts from the package
variable the first pass left, then the second pass issues nothing but adapter construction,
the existence check and the role-member listing. -/
theorem second_pass_is_quiet (env1 env2 : Env) (db : Option Postgres) (database : Database)
    (hget1 : env1.Get = .found database)
    (hlive : IsZero database.ObjectMeta.DeletionTimestamp = true)
    (hres : (Reconcile env1 db).result = .ok)
    (hall : ∀ s ∈ (Reconcile env1 db).trace, s.err = none)
    (hget2 : env2.Get = .found (storedAfter database (Reconcile env1 db).trace))
    (hexists : ∀ e1 e2, env1.Exists = .ok e1 → env2.Exists = .ok e2
      → e2 = existsAfter e1 (Reconcile env1 db).trace)
    (hmembers : ∀ C1 C2, env1.RoleUsers = .ok C1 → env2.RoleUsers = .ok C2
      → ∀ x, x ∈ C2 ↔ x ∈ membersAfter C1 (Reconcile env1 db).trace) :
    ∀ c ∈ calls (Reconcile env2 (Reconcile env1 db).db).trace,
      c = Call.NewDB (storedAfter database (Reconcile env1 db).trace)
        ∨ c = Call.Exists ∨ c = Call.RoleUsers := by
  by_cases hT : database.Status.Phase = "Terminating"
  · have h1 : Reconcile env1 db = ⟨[], .ok, db⟩ := by
      unfold Reconcile
      simp [hget1, hT]
    rw [h1] at hget2 ⊢
    have h2 : Reconcile env2 db = ⟨[], .ok, db⟩ := by
      unfold Reconcile
      simp [hget2, storedAfter, hT]
    simp [h2]
  · obtain ⟨sp, nm, dt, fin, ex, nodrop, reach⟩ :=
      Reconcile_live_ok env1 db database hget1 hlive hT hres hall
    obtain ⟨C1, hC1, hmem⟩ := Reconcile_members_ok env1 db database hget1 reach hall
    refine Reconcile_quiet env2 _ _ hget2 (by rw [dt]; exact hlive) fin ?_ ?_
    · intro hph e2 he2
      have h1 := ex hph
      rw [hexists true e2 h1 he2]
      exact existsAfter_of_no_drop _ nodrop
    · intro C2 hC2 x
      rw [hmembers C1 C2 hC1 hC2 x, hmem x, sp]
      show _ ↔ x = (storedAfter database (Reconcile env1 db).trace).ObjectMeta.Name ∨ _
      rw [show (storedAfter database (Reconcile env1 db).trace).ObjectMeta.Name
        = database.ObjectMeta.Name from nm]

/-- The instance of the amended C4 at a fresh `orders`: the first pass provisions everything
and grants `orders` and `alice`; the store then holds `orders` with the marker and phase
`Created`; the second pass, answered by a backend with the members `orders` and `alice`,
issues only adapter construction, existence check or listing. -/
theorem second_pass_is_quiet_witness :
    IsZero ordersDatabase.ObjectMeta.DeletionTimestamp = true
      ∧ (Reconcile (calmEnv ordersDatabase []) none).result = .ok
      ∧ storedAfter ordersDatabase (Reconcile (calmEnv ordersDatabase []) none).trace
          = provisionedDatabase
      ∧ (∀ c ∈ calls (Reconcile (existingEnv provisionedDatabase ["orders", "alice"])
            (Reconcile (calmEnv ordersDatabase []) none).db).trace,
          c = Call.NewDB (storedAfter ordersDatabase
                (Reconcile (calmEnv ordersDatabase []) none).trace)
            ∨ c = Call.Exists ∨ c = Call.RoleUsers) :=
  ⟨by decide, by decide, by decide,
    second_pass_is_quiet (calmEnv ordersDatabase [])
      (existingEnv provisionedDatabase ["orders", "alice"]) none ordersDatabase rfl
      (by decide) (by decide) (by decide)
      (congrArg GetResult.found (by decide))
      (fun e1 e2 h1 h2 => by
        have a1 : e1 = false := by simpa [calmEnv] using h1.symm
        have a2 : e2 = true := by simpa [existingEnv, calmEnv] using h2.symm
        subst a1 a2
        decide)
      (fun C1 C2 h1 h2 x => by
        have a1 : C1 = [] := by simpa [calmEnv] using h1.symm
        have a2 : C2 = ["orders", "alice"] := by simpa [existingEnv, calmEnv] using h2.symm
        subst a1 a2
        have hm : membersAfter [] (Reconcile (calmEnv ordersDatabase []) none).trace
            = ["alice", "orders"] := by decide
        rw [hm]
        simp [or_comm])⟩

/-- C4 as stated fails: `orders` is provisioned and registered, the role holds `orders` only,
and the backend refuses the grant for `alice`.  The first pass swallows the refusal and
returns nil; store and membership are unchanged; the second pass, over the same resource
and a backend that reports exactly the membership left behind, issues `Grant alice` again. -/
theorem second_pass_repeats_failed_grant :
    IsZero provisionedDatabase.ObjectMeta.DeletionTimestamp = true
      ∧ (Reconcile (grantFailEnv provisionedDatabase ["orders"]) none).result = .ok
      ∧ (Reconcile (grantFailEnv provisionedDatabase ["orders"]) none).trace
          = [ ⟨Call.NewDB provisionedDatabase, none⟩, ⟨Call.RoleUsers, none⟩,
              ⟨Call.Grant "alice", some "permission denied"⟩ ]
      ∧ storedAfter provisionedDatabase
            (Reconcile (grantFailEnv provisionedDatabase ["orders"]) none).trace
          = provisionedDatabase
      ∧ membersAfter ["orders"]
            (Reconcile (grantFailEnv provisionedDatabase ["orders"]) none).trace
          = ["orders"]
      ∧ calls (Reconcile (grantFailEnv provisionedDatabase ["orders"])
            (Reconcile (grantFailEnv provisionedDatabase ["orders"]) none).db).trace
          = [Call.NewDB provisionedDatabase, Call.RoleUsers, Call.Grant "alice"] := by
  decide

/-! ## The grant/revoke plan -/

theorem converge_plan (env : Env) (pg : Postgres) (d : Database) (C : List String)
    (hC : env.RoleUsers = .ok C) :
    calls (converge env (some pg) d).1
        = Call.RoleUsers ::
            ((C.filter (fun u => !contains (d.Name :: d.Spec.Users) u)).map Call.Revoke
              ++ ((d.Name :: d.Spec.Users).filter (fun u => !contains C u)).map Call.Grant)
      ∧ (converge env (some pg) d).2 = .ok := by
  simp only [converge, hC]
  refine ⟨?_, ?_⟩
  · simp only [calls_append, calls_cons, calls_nil, revokeLoop_calls, grantLoop_calls]
    rfl
  · rw [revokeLoop_err, grantLoop_err]
    rfl

/-- A pass that lists the role members and receives `C`: set-up calls, the listing, one
`Revoke` per entry of `C` outside the desired list, one `Grant` per entry of the desired
list outside `C`; the pass returns nil. -/
theorem Reconcile_plan (env : Env) (db : Option Postgres) (database : Database)
    (C : List String)
    (hget : env.Get = .found database)
    (hC : env.RoleUsers = .ok C)
    (hreach : Call.RoleUsers ∈ calls (Reconcile env db).trace) :
    ∃ pre, (∀ s ∈ pre, setupCall s.call = true)
      ∧ calls (Reconcile env db).trace
          = calls pre ++ Call.RoleUsers ::
              ((C.filter (fun u => !contains (database.Name :: database.Spec.Users) u)).map
                  Call.Revoke
                ++ ((database.Name :: database.Spec.Users).filter
                    (fun u => !contains C u)).map Call.Grant)
      ∧ (Reconcile env db).result = .ok := by
  have hreach' : ∃ s ∈ (Reconcile env db).trace, s.call = Call.RoleUsers := by
    obtain ⟨s, hs, hc⟩ := List.mem_map.1 hreach
    exact ⟨s, hs, hc⟩
  obtain ⟨pre, pg, d', hpre, hspec, hname, htr, hres⟩ :=
    Reconcile_reach env db database hget hreach'
  obtain ⟨hp, hr⟩ := converge_plan env pg d' C hC
  refine ⟨pre, hpre, ?_, hres.trans hr⟩
  rw [htr, calls_append, hp, hspec]
  rw [show d'.Name = database.Name from hname]

/-- C12 (grant/revoke failures are swallowed): for a pass that reaches the role-member
listing and receives the list `C`, whatever the individual `Grant` and `Revoke` calls
answer, `Revoke u` is issued for every `u` of `C` outside `name :: users`, `Grant u` is
issued for every `u` of `name :: users` outside `C`, and the pass returns nil. -/
theorem grant_revoke_failures_are_swallowed (env : Env) (db : Option Postgres)
    (database : Database) (C : List String)
    (hget : env.Get = .found database)
    (hC : env.RoleUsers = .ok C)
    (hreach : Call.RoleUsers ∈ calls (Reconcile env db).trace) :
    (Reconcile env db).result = .ok
      ∧ (∀ u ∈ C, u ∉ database.Name :: database.Spec.Users
          → Call.Revoke u ∈ calls (Reconcile env db).trace)
      ∧ (∀ u ∈ database.Name :: database.Spec.Users, u ∉ C
          → Call.Grant u ∈ calls (Reconcile env db).trace) := by
  obtain ⟨pre, -, hcalls, hres⟩ := Reconcile_plan env db database C hget hC hreach
  refine ⟨hres, ?_, ?_⟩
  · intro u hu hnot
    rw [hcalls]
    have hc : contains (database.Name :: database.Spec.Users) u = false :=
      (contains_eq_false_iff _ _).2 hnot
    have : u ∈ C.filter (fun u => !contains (database.Name :: database.Spec.Users) u) :=
      List.mem_filter.2 ⟨hu, by simp [hc]⟩
    exact List.mem_append_right _ (List.mem_cons_of_mem _
      (List.mem_append_left _ (List.mem_map_of_mem _ this)))
  · intro u hu hnot
    rw [hcalls]
    have hc : contains C u = false := (contains_eq_false_iff _ _).2 hnot
    have : u ∈ (database.Name :: database.Spec.Users).filter (fun u => !contains C u) :=
      List.mem_filter.2 ⟨hu, by simp [hc]⟩
    exact List.mem_append_right _ (List.mem_cons_of_mem _
      (List.mem_append_right _ (List.mem_map_of_mem _ this)))

/-- The instance of C12 at `orders` (provisioned, declared user `alice`) with the role
members `bob` and `carol` and a backend that refuses every grant and revoke: all four calls
fail, and still the pass returns nil. -/
theorem grant_revoke_failures_are_swallowed_witness :
    (refusingEnv provisionedDatabase ["bob", "carol"]).Get = .found provisionedDatabase
      ∧ (refusingEnv provisionedDatabase ["bob", "carol"]).RoleUsers = .ok ["bob", "carol"]
      ∧ (Reconcile (refusingEnv provisionedDatabase ["bob", "carol"]) none).trace
          = [ ⟨Call.NewDB provisionedDatabase, none⟩, ⟨Call.RoleUsers, none⟩,
              ⟨Call.Revoke "bob", some "permission denied"⟩,
              ⟨Call.Revoke "carol", some "permission denied"⟩,
              ⟨Call.Grant "orders", some "permission denied"⟩,
              ⟨Call.Grant "alice", some "permission denied"⟩ ]
      ∧ (Reconcile (refusingEnv provisionedDatabase ["bob", "carol"]) none).result = .ok :=
  ⟨rfl, rfl, by decide,
    (grant_revoke_failures_are_swallowed (refusingEnv provisionedDatabase ["bob", "carol"])
      none provisionedDatabase ["bob", "carol"] rfl rfl (by decide)).1⟩

theorem count_setup_zero (pre : List Step) (c : Call)
    (hpre : ∀ s ∈ pre, setupCall s.call = true) (hc : setupCall c = false) :
    (calls pre).count c = 0 := by
  apply List.count_eq_zero_of_not_mem
  intro h
  obtain ⟨s, hs, hsc⟩ := List.mem_map.1 h
  have := hpre s hs
  rw [hsc, hc] at this
  exact Bool.false_ne_true this

theorem count_filter_not_contains (L M : List String) (u : String) :
    (L.filter (fun v => !contains M v)).count u = if u ∈ M then 0 else L.count u := by
  by_cases h : u ∈ M
  · rw [if_pos h]
    apply List.count_eq_zero_of_not_mem
    intro hm
    have := (List.mem_filter.1 hm).2
    rw [(contains_iff M u).2 h] at this
    exact absurd this (by decide)
  · rw [if_neg h]
    apply List.count_filter
    rw [(contains_eq_false_iff M u).2 h]
    rfl

/-- C15, as amended (the grant/revoke plan, counted per occurrence): for a pass that reaches
the role-member listing and receives the list `C`, and for every identity `u`, the number of
`Revoke u` calls is the number of occurrences of `u` in `C` when `u` is outside
`name :: users` and zero otherwise, and the number of `Grant u` calls is the number of
occurrences of `u` in `name :: users` when `u` is outside `C` and zero otherwise. -/
theorem grant_revoke_plan_counts (env : Env) (db : Option Postgres)
    (database : Database) (C : List String)
    (hget : env.Get = .found database)
    (hC : env.RoleUsers = .ok C)
    (hreach : Call.RoleUsers ∈ calls (Reconcile env db).trace)
    (u : String) :
    (calls (Reconcile env db).trace).count (Call.Revoke u)
        = (if u ∈ database.Name :: database.Spec.Users then 0 else C.count u)
      ∧ (calls (Reconcile env db).trace).count (Call.Grant u)
        = (if u ∈ C then 0 else (database.Name :: database.Spec.Users).count u) := by
  obtain ⟨pre, hpre, hcalls, -⟩ := Reconcile_plan env db database C hget hC hreach
  have injR : Function.Injective Call.Revoke := fun a b h => by simpa using h
  have injG : Function.Injective Call.Grant := fun a b h => by simpa using h
  have zRG : ∀ L : List String, (L.map Call.Grant).count (Call.Revoke u) = 0 := fun L =>
    List.count_eq_zero_of_not_mem (by simp)
  have zGR : ∀ L : List String, (L.map Call.Revoke).count (Call.Grant u) = 0 := fun L =>
    List.count_eq_zero_of_not_mem (by simp)
  rw [hcalls]
  refine ⟨?_, ?_⟩
  · rw [List.count_append, count_setup_zero pre (Call.Revoke u) hpre rfl, List.count_cons,
      List.count_append, zRG, List.count_map_of_injective _ _ injR,
      count_filter_not_contains]
    simp
  · rw [List.count_append, count_setup_zero pre (Call.Grant u) hpre rfl, List.count_cons,
      List.count_append, zGR, List.count_map_of_injective _ _ injG,
      count_filter_not_contains]
    simp

/-- The instances of the amended C15 at the two scenarios of the claim: with members
`orders` and declared user `alice` there is one `Grant alice` and no `Revoke`; with members
`orders`, `alice` and no declared user there is one `Revoke alice` and no `Grant`. -/
theorem grant_revoke_plan_counts_witness :
    ((calls (Reconcile (calmEnv provisionedDatabase ["orders"]) none).trace).count
          (Call.Grant "alice") = 1
        ∧ calls (Reconcile (calmEnv provisionedDatabase ["orders"]) none).trace
          = [Call.NewDB provisionedDatabase, Call.RoleUsers, Call.Grant "alice"])
      ∧ ((calls (Reconcile (calmEnv soloDatabase ["orders", "alice"]) none).trace).count
          (Call.Revoke "alice") = 1
        ∧ calls (Reconcile (calmEnv soloDatabase ["orders", "alice"]) none).trace
          = [Call.NewDB soloDatabase, Call.RoleUsers, Call.Revoke "alice"]) :=
  ⟨⟨((grant_revoke_plan_counts (calmEnv provisionedDatabase ["orders"]) none
        provisionedDatabase ["orders"] rfl rfl (by decide) "alice").2).trans (by decide),
      by decide⟩,
    ⟨((grant_revoke_plan_counts (calmEnv soloDatabase ["orders", "alice"]) none
        soloDatabase ["orders", "alice"] rfl rfl (by decide) "alice").1).trans (by decide),
      by decide⟩⟩

/-- C15 as stated fails: `orders` declares its own name as a user and the role is empty.
The desired set is `{orders}` and `orders` is the one identity to grant, yet the pass issues
`Grant orders` twice, once per entry of `name :: users`. -/
theorem owner_declared_as_user_is_granted_twice :
    (calmEnv selfUserDatabase []).RoleUsers = .ok []
      ∧ calls (Reconcile (calmEnv selfUserDatabase []) none).trace
          = [ Call.NewDB selfUserDatabase, Call.RoleUsers, Call.Grant "orders",
              Call.Grant "orders" ]
      ∧ (calls (Reconcile (calmEnv selfUserDatabase []) none).trace).count
          (Call.Grant "orders") = 2 :=
  ⟨rfl, by decide, by decide⟩

/-! ## What a pass submits to the store -/

theorem FrameOf.refl (d : Database) : FrameOf d d := ⟨rfl, rfl, rfl, rfl, rfl⟩

theorem FrameOf.trans {d d2 obj : Database} (h1 : FrameOf d d2) (h2 : FrameOf d2 obj) :
    FrameOf d obj :=
  ⟨h2.1.trans h1.1, h2.2.1.trans h1.2.1, h2.2.2.1.trans h1.2.2.1,
    h2.2.2.2.1.trans h1.2.2.2.1, h2.2.2.2.2.trans h1.2.2.2.2⟩

theorem filter_marker_append (l : List String) :
    (l ++ [myFinalizerName]).filter (fun f => f != myFinalizerName)
      = l.filter (fun f => f != myFinalizerName) := by
  simp [List.filter_append]

theorem filter_marker_removeString (l : List String) :
    (removeString l myFinalizerName).filter (fun f => f != myFinalizerName)
      = l.filter (fun f => f != myFinalizerName) := by
  rw [removeString_eq_filter, List.filter_filter]
  simp

theorem finalize_no_update (env : Env) (db : Option Postgres) (d : Database) :
    ∀ s ∈ (finalize env db d).1, ∀ obj, s.call ≠ Call.Update obj := by
  unfold finalize
  cases db with
  | none => simp
  | some pg =>
    by_cases hd : d.Spec.Drop = true
    · simp [hd]
    · simp [hd]

/-- Every `Update` of the finalizer section keeps the frame, and carries the fetched phase
or `Terminating`. -/
theorem finalizerStage_updates (env : Env) (db : Option Postgres) (d : Database) :
    ∀ s ∈ (finalizerStage env db d).1, ∀ obj, s.call = Call.Update obj →
      FrameOf d obj
        ∧ (obj.Status.Phase = d.Status.Phase ∨ obj.Status.Phase = "Terminating") := by
  have hf := finalize_no_update env db d
  have fa : ∀ obj : Database, obj.ObjectMeta.Name = d.ObjectMeta.Name
      → obj.ObjectMeta.Namespace = d.ObjectMeta.Namespace
      → obj.ObjectMeta.DeletionTimestamp = d.ObjectMeta.DeletionTimestamp
      → obj.Spec = d.Spec
      → obj.ObjectMeta.Finalizers.filter (fun f => f != myFinalizerName)
          = d.ObjectMeta.Finalizers.filter (fun f => f != myFinalizerName)
      → FrameOf d obj := fun obj a b c e f => ⟨a, b, c, e, f⟩
  unfold finalizerStage
  split_ifs
  · dsimp only
    split
    all_goals
      intro s hs obj ho
      simp only [List.mem_singleton] at hs
      subst hs
      simp only [Call.Update.injEq] at ho
      subst ho
      exact ⟨fa _ rfl rfl rfl rfl (filter_marker_append _), Or.inl rfl⟩
  · simp
  · split
    · intro s hs obj ho
      simp_all
    · intro s hs obj ho
      simp_all
    · rename_i x t hfin
      have hf' : ∀ s ∈ t, ∀ obj, s.call ≠ Call.Update obj := by
        intro s hs
        exact hf s (by rw [hfin]; exact hs)
      dsimp only
      split
      all_goals
        intro s hs obj ho
        simp only [List.mem_append, List.mem_singleton] at hs
        rcases hs with hs | hs
        · exact absurd ho (hf' s hs obj)
        · subst hs
          simp only [Call.Update.injEq] at ho
          subst ho
          exact ⟨fa _ rfl rfl rfl rfl (filter_marker_removeString _), Or.inr rfl⟩
  · simp

theorem finalizerStage_next_frame (env : Env) (db : Option Postgres) (d d' : Database)
    (h : (finalizerStage env db d).2 = .next d') : FrameOf d d' ∧ d'.Status = d.Status := by
  unfold finalizerStage at h
  split_ifs at h
  · dsimp only at h
    split at h <;> simp_all
    subst h
    exact ⟨⟨rfl, rfl, rfl, rfl, filter_marker_append _⟩, rfl⟩
  · simp_all
    exact FrameOf.refl _
  · split at h
    · simp_all
    · simp_all
    · dsimp only at h
      split at h <;> simp_all
  · simp_all
    exact FrameOf.refl _

/-- Every `Update` of the provisioning section changes only the phase, to `Created`, and
only from a phase other than `Created`. -/
theorem provision_updates (env : Env) (db : Option Postgres) (d : Database) :
    ∀ s ∈ (provision env db d).1, ∀ obj, s.call = Call.Update obj →
      obj.ObjectMeta = d.ObjectMeta ∧ obj.Spec = d.Spec ∧ obj.Status.Phase = "Created"
        ∧ d.Status.Phase ≠ "Created" := by
  unfold provision
  split_ifs with hp
  · have hp' : d.Status.Phase ≠ "Created" := by simpa using hp
    repeat' (first | split | (dsimp only; split))
    all_goals
      intro s hs obj ho
      simp only [List.mem_cons, List.mem_singleton, List.not_mem_nil, or_false] at hs
    all_goals
      first
      | exact absurd hs (List.not_mem_nil _)
      | (rcases hs with hs | hs | hs | hs | hs | hs <;> subst hs <;> simp at ho
         subst ho
         exact ⟨rfl, rfl, rfl, hp'⟩)
      | (rcases hs with hs | hs | hs | hs | hs <;> subst hs <;> simp at ho)
      | (rcases hs with hs | hs | hs | hs <;> subst hs <;> simp at ho)
      | (rcases hs with hs | hs | hs <;> subst hs <;> simp at ho)
      | (rcases hs with hs | hs <;> subst hs <;> simp at ho)
      | (subst hs; simp at ho)
  · simp

theorem storedAfter_cases (d : Database) (t : List Step) :
    storedAfter d t = d ∨ Call.Update (storedAfter d t) ∈ calls t := by
  induction t using List.reverseRecOn with
  | nil => exact Or.inl rfl
  | append_singleton t s ih =>
    rw [storedAfter_append]
    have hstep : storedAfter (storedAfter d t) [s] = storedAfter d t
        ∨ s.call = Call.Update (storedAfter (storedAfter d t) [s]) := by
      simp only [storedAfter, List.foldl_cons, List.foldl_nil]
      split
      · rename_i obj hc _
        exact Or.inr hc
      · exact Or.inl rfl
    rcases hstep with h | h
    · rw [h]
      rcases ih with ih | ih
      · exact Or.inl ih
      · exact Or.inr (by rw [calls_append]; exact List.mem_append_left _ ih)
    · refine Or.inr ?_
      rw [calls_append]
      exact List.mem_append_right _ (by simp [h.symm])

/-- Every resource a pass submits by `Update` keeps the frame of the fetched resource, and
its phase follows the fetched phase by one step; a pass that submits anything did not start
in phase `Terminating`. -/
theorem Reconcile_updates (env : Env) (db : Option Postgres) (database : Database)
    (hget : env.Get = .found database) :
    ∀ obj, Call.Update obj ∈ calls (Reconcile env db).trace →
      FrameOf database obj ∧ PhaseStep database.Status.Phase obj.Status.Phase
        ∧ database.Status.Phase ≠ "Terminating" := by
  intro obj hobj
  by_cases hT : database.Status.Phase = "Terminating"
  · have h0 : Reconcile env db = ⟨[], .ok, db⟩ := by
      unfold Reconcile
      simp [hget, hT]
    rw [h0] at hobj
    simp at hobj
  · obtain ⟨s, hs, hso⟩ := List.mem_map.1 hobj
    rcases h1 : selectBackend env db database with ⟨t1, db1, f1⟩
    have s1 := selectBackend_calls env db database
    rw [h1] at s1
    simp only at s1
    have k1 : s ∉ t1 := fun h => by
      have := s1 s h
      rw [hso] at this
      simp at this
    have in2 : ∀ t2 : List Step, (finalizerStage env db1 database).1 = t2 → s ∈ t2 →
        FrameOf database obj ∧ PhaseStep database.Status.Phase obj.Status.Phase
          ∧ database.Status.Phase ≠ "Terminating" := by
      intro t2 ht2 hin
      obtain ⟨hfr, hph⟩ := finalizerStage_updates env db1 database s (ht2 ▸ hin) obj hso
      refine ⟨hfr, ?_, hT⟩
      rcases hph with h | h
      · exact Or.inl h
      · exact Or.inr (Or.inr h)
    cases f1 with
    | ret o =>
      rw [Reconcile_of_select_ret env db database t1 db1 o hget hT h1] at hs
      exact absurd hs k1
    | next d1 =>
      have e1 : d1 = database := selectBackend_next env db database d1 (by rw [h1])
      subst e1
      rcases h2 : finalizerStage env db1 d1 with ⟨t2, f2⟩
      cases f2 with
      | ret o =>
        rw [Reconcile_of_stage_ret env db d1 t1 db1 d1 t2 o hget hT h1 h2] at hs
        rcases List.mem_append.1 hs with h | h
        · exact absurd h k1
        · exact in2 t2 (by rw [h2]) h
      | next d2 =>
        obtain ⟨fr2, st2⟩ := finalizerStage_next_frame env db1 d1 d2 (by rw [h2])
        have in3 : ∀ t3 : List Step, (provision env db1 d2).1 = t3 → s ∈ t3 →
            FrameOf d1 obj ∧ PhaseStep d1.Status.Phase obj.Status.Phase
              ∧ d1.Status.Phase ≠ "Terminating" := by
          intro t3 ht3 hin
          obtain ⟨om, sp, ph, hne⟩ := provision_updates env db1 d2 s (ht3 ▸ hin) obj hso
          refine ⟨FrameOf.trans fr2 ⟨by rw [om], by rw [om], by rw [om], sp, by rw [om]⟩,
            ?_, hT⟩
          rw [st2] at hne
          exact Or.inr (Or.inl ⟨ph, hne, hT⟩)
        rcases h3 : provision env db1 d2 with ⟨t3, f3⟩
        cases f3 with
        | ret o =>
          rw [Reconcile_of_provision_ret env db d1 t1 db1 d1 t2 d2 t3 o hget hT h1 h2 h3]
            at hs
          simp only [List.mem_append] at hs
          rcases hs with (h | h) | h
          · exact absurd h k1
          · exact in2 t2 (by rw [h2]) h
          · exact in3 t3 (by rw [h3]) h
        | next d3 =>
          rw [Reconcile_of_converge env db d1 t1 db1 d1 t2 d2 t3 d3 hget hT h1 h2 h3] at hs
          simp only [List.mem_append] at hs
          rcases hs with ((h | h) | h) | h
          · exact absurd h k1
          · exact in2 t2 (by rw [h2]) h
          · exact in3 t3 (by rw [h3]) h
          · have := converge_membership env db1 d3 s h
            rw [hso] at this
            simp [setupCall] at this

/-- C17 (frame of store mutations): every object a pass submits to the store by `Update` has
the fetched name, namespace and spec (type, schema, users, drop), and its finalizers other
than the operator's marker are the fetched ones in their original order. -/
theorem updates_keep_the_frame (env : Env) (db : Option Postgres) (database : Database)
    (hget : env.Get = .found database) (obj : Database)
    (hobj : Call.Update obj ∈ calls (Reconcile env db).trace) :
    obj.Name = database.Name ∧ obj.Namespace = database.Namespace
      ∧ obj.Spec.Type' = database.Spec.Type' ∧ obj.Spec.Schema = database.Spec.Schema
      ∧ obj.Spec.Users = database.Spec.Users ∧ obj.Spec.Drop = database.Spec.Drop
      ∧ obj.ObjectMeta.Finalizers.filter (fun f => f != myFinalizerName)
          = database.ObjectMeta.Finalizers.filter (fun f => f != myFinalizerName) := by
  obtain ⟨⟨hn, hns, -, hsp, hfin⟩, -, -⟩ := Reconcile_updates env db database hget obj hobj
  exact ⟨hn, hns, by rw [hsp], by rw [hsp], by rw [hsp], by rw [hsp], hfin⟩

/-- The instance of C17 at `billing` under deletion, with a foreign finalizer on either side
of the marker: the submitted object keeps both foreign finalizers in order. -/
theorem updates_keep_the_frame_witness :
    (calmEnv sandwichedDatabase []).Get = .found sandwichedDatabase
      ∧ calls (Reconcile (calmEnv sandwichedDatabase []) none).trace
          = [ Call.NewDB sandwichedDatabase,
              Call.Get ⟨"prod", "billing-postgres"⟩, Call.Delete emptySecret,
              Call.DropUser "billing", Call.DropDatabase,
              Call.Update
                { sandwichedDatabase with
                  ObjectMeta :=
                    { sandwichedDatabase.ObjectMeta with
                      Finalizers := ["example.com/a", "example.com/b"] }
                  Status := { Phase := "Terminating" } } ]
      ∧ (({ sandwichedDatabase with
            ObjectMeta :=
              { sandwichedDatabase.ObjectMeta with
                Finalizers := ["example.com/a", "example.com/b"] }
            Status := { Phase := "Terminating" } } : Database).Spec.Users
          = sandwichedDatabase.Spec.Users) :=
  ⟨rfl, by decide,
    (updates_keep_the_frame (calmEnv sandwichedDatabase []) none sandwichedDatabase rfl
      { sandwichedDatabase with
        ObjectMeta :=
          { sandwichedDatabase.ObjectMeta with
            Finalizers := ["example.com/a", "example.com/b"] }
        Status := { Phase := "Terminating" } } (by decide)).2.2.2.2.1⟩

/-- C18 (phase transition invariant): whatever the calls of a pass answer, the phase of every
object the pass submits by `Update`, and the phase the store holds after the pass, is the
fetched phase, or `Created` reached from a phase that is neither `Created` nor
`Terminating`, or `Terminating`; a resource fetched in phase `Terminating` is not submitted
at all and keeps its phase; a resource fetched in phase `Created` never holds a phase other
than `Created` or `Terminating`. -/
theorem phase_moves_forward (env : Env) (db : Option Postgres) (database : Database)
    (hget : env.Get = .found database) :
    (∀ obj, Call.Update obj ∈ calls (Reconcile env db).trace
        → PhaseStep database.Status.Phase obj.Status.Phase)
      ∧ PhaseStep database.Status.Phase
          (storedAfter database (Reconcile env db).trace).Status.Phase
      ∧ (database.Status.Phase = "Terminating"
          → (Reconcile env db).trace = []
            ∧ storedAfter database (Reconcile env db).trace = database)
      ∧ (database.Status.Phase = "Created"
          → (storedAfter database (Reconcile env db).trace).Status.Phase = "Created"
            ∨ (storedAfter database (Reconcile env db).trace).Status.Phase
                = "Terminating") := by
  have hup := Reconcile_updates env db database hget
  have hst : PhaseStep database.Status.Phase
      (storedAfter database (Reconcile env db).trace).Status.Phase := by
    rcases storedAfter_cases database (Reconcile env db).trace with h | h
    · rw [h]; exact Or.inl rfl
    · exact (hup _ h).2.1
  refine ⟨fun obj h => (hup obj h).2.1, hst, ?_, ?_⟩
  · intro hT
    have h0 : Reconcile env db = ⟨[], .ok, db⟩ := by
      unfold Reconcile
      simp [hget, hT]
    rw [h0]
    exact ⟨rfl, rfl⟩
  · intro hC
    rcases hst with h | ⟨-, h, -⟩ | h
    · exact Or.inl (h.trans hC)
    · exact absurd hC h
    · exact Or.inr h

/-- The instance of C18 at a fresh `orders` with every call succeeding: the store ends with
phase `Created`, reached from the empty phase. -/
theorem phase_moves_forward_witness :
    (calmEnv ordersDatabase []).Get = .found ordersDatabase
      ∧ (storedAfter ordersDatabase
          (Reconcile (calmEnv ordersDatabase []) none).trace).Status.Phase = "Created"
      ∧ PhaseStep ordersDatabase.Status.Phase
          (storedAfter ordersDatabase
            (Reconcile (calmEnv ordersDatabase []) none).trace).Status.Phase :=
  ⟨rfl, by decide,
    (phase_moves_forward (calmEnv ordersDatabase []) none ordersDatabase rfl).2.1⟩

/-! ## Fatal failures -/

theorem selectBackend_fatal (env : Env) (db : Option Postgres) (d : Database)
    (c : Call) (e : Error)
    (h : (⟨c, some e⟩ : Step) ∈ (selectBackend env db d).1) :
    (selectBackend env db d).2.2 = .ret (.error e)
      ∧ (selectBackend env db d).1 = [⟨c, some e⟩] := by
  unfold selectBackend at h ⊢
  split_ifs at h ⊢ <;> try split at h
  all_goals simp_all

theorem selectBackend_next_ok (env : Env) (db : Option Postgres) (d d' : Database)
    (h : (selectBackend env db d).2.2 = .next d') :
    ∀ s ∈ (selectBackend env db d).1, s.err = none := by
  unfold selectBackend at h ⊢
  split_ifs at h ⊢ <;> try split at h
  all_goals simp_all

theorem finalizerStage_live_next_ok (env : Env) (db : Option Postgres) (d d' : Database)
    (hlive : IsZero d.ObjectMeta.DeletionTimestamp = true)
    (h : (finalizerStage env db d).2 = .next d') :
    ∀ s ∈ (finalizerStage env db d).1, s.err = none := by
  unfold finalizerStage at h ⊢
  simp only [hlive, if_true] at h ⊢
  split_ifs at h ⊢
  · split at h <;> simp_all
  · simp

theorem provision_next_ok (env : Env) (db : Option Postgres) (d d' : Database)
    (h : (provision env db d).2 = .next d') :
    ∀ s ∈ (provision env db d).1, s.err = none := by
  unfold provision at h ⊢
  split_ifs at h ⊢
  · repeat' (first | split at h | (dsimp only at h; split at h))
    all_goals simp_all
  · simp

theorem provision_fatal (env : Env) (db : Option Postgres) (d : Database)
    (c : Call) (e : Error) (hc : fatalCall c = true)
    (h : (⟨c, some e⟩ : Step) ∈ (provision env db d).1) :
    (provision env db d).2 = .ret (.error e)
      ∧ (provision env db d).1 = (provision env db d).1.dropLast ++ [⟨c, some e⟩]
      ∧ ∀ s ∈ (provision env db d).1.dropLast, s.err = none := by
  unfold provision at h ⊢
  split_ifs at h ⊢
  · repeat' (first | split at h | (dsimp only at h; split at h))
    all_goals simp at h
    all_goals
      first
      | (obtain ⟨h1, -⟩ := h
         subst h1
         simp [fatalCall] at hc
         done)
      | (obtain ⟨h1, h2⟩ := h
         subst h1 h2
         simp_all)
  · simp at h

theorem provision_no_drops (env : Env) (db : Option Postgres) (d : Database) :
    ∀ s ∈ (provision env db d).1, s.call ≠ Call.DropDatabase ∧ ∀ u, s.call ≠ Call.DropUser u := by
  intro s hs
  have := provision_setup env db d s hs
  unfold provision at hs
  split_ifs at hs
  · repeat' (first | split at hs | (dsimp only at hs; split at hs))
    all_goals simp at hs
    all_goals
      first
      | (subst hs; simp)
      | (rcases hs with hs | hs | hs | hs | hs | hs <;> subst hs <;> simp)
      | (rcases hs with hs | hs | hs | hs | hs <;> subst hs <;> simp)
      | (rcases hs with hs | hs | hs | hs <;> subst hs <;> simp)
      | (rcases hs with hs | hs | hs <;> subst hs <;> simp)
      | (rcases hs with hs | hs <;> subst hs <;> simp)
  · simp at hs

theorem converge_fatal (env : Env) (db : Option Postgres) (d : Database)
    (c : Call) (e : Error) (hc : fatalCall c = true)
    (h : (⟨c, some e⟩ : Step) ∈ (converge env db d).1) :
    (converge env db d).2 = .error e ∧ (converge env db d).1 = [⟨c, some e⟩] := by
  cases db with
  | none => simp [converge] at h
  | some pg =>
    cases hR : env.RoleUsers with
    | error e' =>
      simp only [converge, hR, List.mem_singleton] at h ⊢
      simp only [Step.mk.injEq, Option.some.injEq] at h
      obtain ⟨h1, h2⟩ := h
      subst h1 h2
      exact ⟨rfl, rfl⟩
    | ok C =>
      exfalso
      have hcall : c ∈ calls (converge env (some pg) d).1 := List.mem_map_of_mem Step.call h
      rw [(converge_plan env pg d C hR).1] at hcall
      simp only [List.mem_cons, List.mem_append, List.mem_map] at hcall
      rcases hcall with hcall | ⟨u, -, hu⟩ | ⟨u, -, hu⟩
      · subst hcall
        simp only [converge, hR, List.mem_append, List.mem_singleton] at h
        rcases h with (h | h) | h
        · simp at h
        · have h2 : Call.RoleUsers ∈ calls (revokeLoop env ([d.Name] ++ d.Spec.Users) 0 C
              none).1 := List.mem_map_of_mem Step.call h
          rw [revokeLoop_calls] at h2
          simp at h2
        · have h2 : Call.RoleUsers ∈ calls (grantLoop env C 0 ([d.Name] ++ d.Spec.Users)
              (revokeLoop env ([d.Name] ++ d.Spec.Users) 0 C none).2).1 :=
            List.mem_map_of_mem Step.call h
          rw [grantLoop_calls] at h2
          simp at h2
      · subst hu
        simp [fatalCall] at hc
      · subst hu
        simp [fatalCall] at hc

/-- C14 (fatal failures abort the pass): for a resource that is not being deleted, when
adapter construction, the existence check, `CreateDatabase`, `CreateUser` or the role-member
listing returned an error, the pass returns that error, the failed call is its last step
and every step before it succeeded, and the pass issued neither `DropDatabase` nor
`DropUser`. -/
theorem fatal_failure_aborts_the_pass (env : Env) (db : Option Postgres)
    (database : Database) (c : Call) (e : Error)
    (hget : env.Get = .found database)
    (hlive : IsZero database.ObjectMeta.DeletionTimestamp = true)
    (hc : fatalCall c = true)
    (hfail : (⟨c, some e⟩ : Step) ∈ (Reconcile env db).trace) :
    (Reconcile env db).result = .error e
      ∧ (∃ pre, (Reconcile env db).trace = pre ++ [⟨c, some e⟩]
          ∧ ∀ s ∈ pre, s.err = none)
      ∧ (∀ s ∈ (Reconcile env db).trace,
          s.call ≠ Call.DropDatabase ∧ ∀ u, s.call ≠ Call.DropUser u) := by
  have hT : database.Status.Phase ≠ "Terminating" := by
    intro hT
    have h0 : Reconcile env db = ⟨[], .ok, db⟩ := by
      unfold Reconcile
      simp [hget, hT]
    rw [h0] at hfail
    simp at hfail
  rcases h1 : selectBackend env db database with ⟨t1, db1, f1⟩
  have s1 := selectBackend_calls env db database
  have g1 := selectBackend_fatal env db database c e
  rw [h1] at s1 g1
  simp only at s1 g1
  have nd1 : ∀ s ∈ t1, s.call ≠ Call.DropDatabase ∧ ∀ u, s.call ≠ Call.DropUser u := by
    intro s hs
    rw [s1 s hs]
    simp
  cases f1 with
  | ret o =>
    rw [Reconcile_of_select_ret env db database t1 db1 o hget hT h1] at hfail ⊢
    obtain ⟨ho, ht⟩ := g1 hfail
    simp only [Flow.ret.injEq] at ho
    subst ho
    exact ⟨rfl, ⟨[], by simpa using ht, by simp⟩, nd1⟩
  | next d1 =>
    have e1 : d1 = database := selectBackend_next env db database d1 (by rw [h1])
    subst e1
    have k1 : (⟨c, some e⟩ : Step) ∉ t1 := fun h => by
      have := (g1 h).1
      simp at this
    have ok1 : ∀ s ∈ t1, s.err = none := by
      have := selectBackend_next_ok env db d1 d1 (by rw [h1])
      rw [h1] at this
      exact this
    rcases h2 : finalizerStage env db1 d1 with ⟨t2, f2⟩
    have u2 := finalizerStage_live env db1 d1 hlive
    rw [h2] at u2
    simp only at u2
    have k2 : (⟨c, some e⟩ : Step) ∉ t2 := fun h => by
      obtain ⟨obj, ho, -⟩ := u2 _ h
      simp only at ho
      subst ho
      simp [fatalCall] at hc
    have nd2 : ∀ s ∈ t2, s.call ≠ Call.DropDatabase ∧ ∀ u, s.call ≠ Call.DropUser u := by
      intro s hs
      obtain ⟨obj, ho, -⟩ := u2 s hs
      rw [ho]
      simp
    cases f2 with
    | ret o =>
      rw [Reconcile_of_stage_ret env db d1 t1 db1 d1 t2 o hget hT h1 h2] at hfail
      rcases List.mem_append.1 hfail with h | h
      · exact absurd h k1
      · exact absurd h k2
    | next d2 =>
      have ok2 : ∀ s ∈ t2, s.err = none := by
        have := finalizerStage_live_next_ok env db1 d1 d2 hlive (by rw [h2])
        rw [h2] at this
        exact this
      rcases h3 : provision env db1 d2 with ⟨t3, f3⟩
      have g3 := provision_fatal env db1 d2 c e hc
      have nd3 := provision_no_drops env db1 d2
      rw [h3] at g3 nd3
      simp only at g3 nd3
      cases f3 with
      | ret o =>
        rw [Reconcile_of_provision_ret env db d1 t1 db1 d1 t2 d2 t3 o hget hT h1 h2 h3]
          at hfail ⊢
        simp only [List.mem_append] at hfail
        rcases hfail with (h | h) | h
        · exact absurd h k1
        · exact absurd h k2
        · obtain ⟨ho, ht, hok⟩ := g3 h
          simp only [Flow.ret.injEq] at ho
          subst ho
          refine ⟨rfl, ⟨t1 ++ t2 ++ t3.dropLast, ?_, ?_⟩, ?_⟩
          · simp only
            rw [List.append_assoc (t1 ++ t2), ← ht]
          · intro s hs
            simp only [List.mem_append] at hs
            rcases hs with (hs | hs) | hs
            · exact ok1 s hs
            · exact ok2 s hs
            · exact hok s hs
          · intro s hs
            simp only [List.mem_append] at hs
            rcases hs with (hs | hs) | hs
            · exact nd1 s hs
            · exact nd2 s hs
            · exact nd3 s hs
      | next d3 =>
        have ok3 : ∀ s ∈ t3, s.err = none := by
          have := provision_next_ok env db1 d2 d3 (by rw [h3])
          rw [h3] at this
          exact this
        rw [Reconcile_of_converge env db d1 t1 db1 d1 t2 d2 t3 d3 hget hT h1 h2 h3]
          at hfail ⊢
        simp only [List.mem_append] at hfail
        have m4 := converge_membership env db1 d3
        rcases hfail with ((h | h) | h) | h
        · exact absurd h k1
        · exact absurd h k2
        · have := (g3 h).1
          simp at this
        · obtain ⟨hr, ht⟩ := converge_fatal env db1 d3 c e hc h
          refine ⟨hr, ⟨t1 ++ t2 ++ t3, ?_, ?_⟩, ?_⟩
          · simp only
            rw [ht]
          · intro s hs
            simp only [List.mem_append] at hs
            rcases hs with (hs | hs) | hs
            · exact ok1 s hs
            · exact ok2 s hs
            · exact ok3 s hs
          · intro s hs
            simp only [List.mem_append] at hs
            rcases hs with ((hs | hs) | hs) | hs
            · exact nd1 s hs
            · exact nd2 s hs
            · exact nd3 s hs
            · have h4 := m4 s hs
              constructor
              · intro hcall
                rw [hcall] at h4
                simp [setupCall] at h4
              · intro u hcall
                rw [hcall] at h4
                simp [setupCall] at h4

/-- The instance of C14 at a fresh `orders` whose `CreateUser` fails: the hypotheses hold,
the pass returns that error and stops at the failed call. -/
theorem fatal_failure_aborts_the_pass_witness :
    (createUserFailEnv ordersDatabase []).Get = .found ordersDatabase
      ∧ IsZero ordersDatabase.ObjectMeta.DeletionTimestamp = true
      ∧ (⟨Call.CreateUser ⟨"orders", "s3cret"⟩, some "role exists"⟩ : Step)
          ∈ (Reconcile (createUserFailEnv ordersDatabase []) none).trace
      ∧ (Reconcile (createUserFailEnv ordersDatabase []) none).result = .error "role exists"
      ∧ calls (Reconcile (createUserFailEnv ordersDatabase []) none).trace
          = [ Call.NewDB ordersDatabase,
              Call.Update
                { ordersDatabase with
                  ObjectMeta :=
                    { ordersDatabase.ObjectMeta with Finalizers := ["db.clarizen.cloud"] } },
              Call.Exists, Call.CreateDatabase, Call.NewUser,
              Call.CreateUser ⟨"orders", "s3cret"⟩ ] :=
  ⟨rfl, by decide, by decide,
    (fatal_failure_aborts_the_pass (createUserFailEnv ordersDatabase []) none ordersDatabase
      (Call.CreateUser ⟨"orders", "s3cret"⟩) "role exists" rfl (by decide) rfl
      (by decide)).1,
    by decide⟩

/-! ## Failures inside `finalize` -/

/-- The steps of `finalize` run with an adapter, with the answer each one received. -/
theorem finalize_steps (env : Env) (pg : Postgres) (database : Database) :
    (finalize env (some pg) database).1
        = [ ⟨Call.Get ⟨database.Namespace, database.Name ++ "-" ++ database.Spec.Type'⟩,
              match env.GetSecret
                  ⟨database.Namespace, database.Name ++ "-" ++ database.Spec.Type'⟩ with
                | .ok _ => none
                | .error e => some e⟩,
            ⟨Call.Delete
                (match env.GetSecret
                    ⟨database.Namespace, database.Name ++ "-" ++ database.Spec.Type'⟩ with
                  | .ok s => s
                  | .error _ => emptySecret),
              env.Delete
                (match env.GetSecret
                    ⟨database.Namespace, database.Name ++ "-" ++ database.Spec.Type'⟩ with
                  | .ok s => s
                  | .error _ => emptySecret)⟩,
            ⟨Call.DropUser database.Name, env.DropUser database.Name⟩ ]
          ++ (if database.Spec.Drop then [⟨Call.DropDatabase, env.DropDatabase⟩] else []) := by
  unfold finalize
  by_cases hd : database.Spec.Drop = true
  · simp [hd, secretKey]
  · simp [hd, secretKey]

/-- The deletion branch with an adapter built: the trace is adapter construction, the steps of
`finalize`, and the `Update` of the resource without the marker in phase `Terminating`; the
result is what that `Update` returned. -/
theorem Reconcile_deletion (env : Env) (db : Option Postgres) (database : Database)
    (hget : env.Get = .found database)
    (hphase : database.Status.Phase ≠ "Terminating")
    (htype : database.Spec.Type' = "postgres")
    (hnew : env.NewDB = none)
    (hdel : IsZero database.ObjectMeta.DeletionTimestamp = false)
    (hfin : contains database.ObjectMeta.Finalizers myFinalizerName = true) :
    (Reconcile env db).trace
        = [⟨Call.NewDB database, none⟩]
          ++ (finalize env (some (NewDB database)) database).1
          ++ [ ⟨Call.Update
                  { database with
                    ObjectMeta :=
                      { database.ObjectMeta with
                        Finalizers :=
                          removeString database.ObjectMeta.Finalizers myFinalizerName }
                    Status := { Phase := "Terminating" } },
                env.Update
                  { database with
                    ObjectMeta :=
                      { database.ObjectMeta with
                        Finalizers :=
                          removeString database.ObjectMeta.Finalizers myFinalizerName }
                    Status := { Phase := "Terminating" } }⟩ ]
      ∧ (Reconcile env db).result
          = outcomeOf (env.Update
              { database with
                ObjectMeta :=
                  { database.ObjectMeta with
                    Finalizers := removeString database.ObjectMeta.Finalizers myFinalizerName }
                Status := { Phase := "Terminating" } }) := by
  have hsel : selectBackend env db database
      = ([⟨.NewDB database, none⟩], some (NewDB database), .next database) := by
    simp [selectBackend, htype, hnew]
  obtain ⟨hf2, -⟩ := finalize_shape env (NewDB database) database
  rcases hF : finalize env (some (NewDB database)) database with ⟨tf, cf⟩
  rw [hF] at hf2
  simp only at hf2
  subst hf2
  unfold Reconcile
  simp only [hget, beq_iff_eq, hphase, if_false, hsel]
  unfold finalizerStage
  simp only [hdel, hfin, if_true, Bool.false_eq_true, if_false, hF]
  cases hU : env.Update
      { database with
        ObjectMeta :=
          { database.ObjectMeta with
            Finalizers := removeString database.ObjectMeta.Finalizers myFinalizerName }
        Status := { Phase := "Terminating" } }
  all_goals simp [outcomeOf, hU]

/-- C13, as amended (failures inside finalize are logged, not returned): for a resource of
type `postgres` whose adapter construction succeeds, with deletion requested, the finalizer
marker present and a phase other than `Terminating`, if at least one cleanup step fails (the
delete of the secret, `DropUser`, or `DropDatabase` when `Spec.Drop` is set), then the failed
step is in the trace, every cleanup step is still issued, followed by the `Update` that
removes the marker and sets phase `Terminating`, and the pass returns what that `Update`
returned: success when the `Update` succeeds. -/
theorem failed_cleanup_is_logged_only (env : Env) (db : Option Postgres) (database : Database)
    (hget : env.Get = .found database)
    (hphase : database.Status.Phase ≠ "Terminating")
    (htype : database.Spec.Type' = "postgres")
    (hnew : env.NewDB = none)
    (hdel : IsZero database.ObjectMeta.DeletionTimestamp = false)
    (hfin : contains database.ObjectMeta.Finalizers myFinalizerName = true)
    (hfail :
      env.Delete
          (match env.GetSecret
              ⟨database.Namespace, database.Name ++ "-" ++ database.Spec.Type'⟩ with
            | .ok s => s
            | .error _ => emptySecret) ≠ none
        ∨ env.DropUser database.Name ≠ none
        ∨ (database.Spec.Drop = true ∧ env.DropDatabase ≠ none)) :
    (∃ s ∈ (Reconcile env db).trace, cleanupCall s.call = true ∧ s.err ≠ none)
      ∧ calls (Reconcile env db).trace
          = [ Call.NewDB database,
              Call.Get ⟨database.Namespace, database.Name ++ "-" ++ database.Spec.Type'⟩,
              Call.Delete
                (match env.GetSecret
                    ⟨database.Namespace, database.Name ++ "-" ++ database.Spec.Type'⟩ with
                  | .ok s => s
                  | .error _ => emptySecret),
              Call.DropUser database.Name ]
            ++ (if database.Spec.Drop then [Call.DropDatabase] else [])
            ++ [ Call.Update
                  { database with
                    ObjectMeta :=
                      { database.ObjectMeta with
                        Finalizers :=
                          removeString database.ObjectMeta.Finalizers myFinalizerName }
                    Status := { Phase := "Terminating" } } ]
      ∧ (Reconcile env db).result
          = outcomeOf (env.Update
              { database with
                ObjectMeta :=
                  { database.ObjectMeta with
                    Finalizers := removeString database.ObjectMeta.Finalizers myFinalizerName }
                Status := { Phase := "Terminating" } })
      ∧ (env.Update
            { database with
              ObjectMeta :=
                { database.ObjectMeta with
                  Finalizers := removeString database.ObjectMeta.Finalizers myFinalizerName }
              Status := { Phase := "Terminating" } } = none
          → (Reconcile env db).result = .ok) := by
  obtain ⟨htr, hres⟩ := Reconcile_deletion env db database hget hphase htype hnew hdel hfin
  have hsteps := finalize_steps env (NewDB database) database
  rw [hsteps] at htr
  refine ⟨?_, ?_, hres, ?_⟩
  · rw [htr]
    rcases hfail with h | h | ⟨hd, h⟩
    · generalize (match env.GetSecret
          ⟨database.Namespace, database.Name ++ "-" ++ database.Spec.Type'⟩ with
        | .ok s => s
        | .error _ => emptySecret) = sec at h ⊢
      refine ⟨⟨Call.Delete sec, env.Delete sec⟩, ?_, rfl, h⟩
      simp
    · refine ⟨⟨Call.DropUser database.Name, env.DropUser database.Name⟩, ?_, rfl, h⟩
      simp
    · refine ⟨⟨Call.DropDatabase, env.DropDatabase⟩, ?_, rfl, h⟩
      simp [hd]
  · rw [htr]
    by_cases hd : database.Spec.Drop = true
    · simp [hd]
    · simp [hd]
  · intro hU
    rw [hres, hU]
    rfl

/-- The instance of the amended C13 at `billing` under deletion with `Spec.Drop` set, every
cleanup step failing: the hypotheses hold, the failed `DropDatabase` is in the trace and the
pass ends with success. -/
theorem failed_cleanup_is_logged_only_witness :
    (cleanupFailEnv sandwichedDatabase).Get = .found sandwichedDatabase
      ∧ sandwichedDatabase.Status.Phase ≠ "Terminating"
      ∧ sandwichedDatabase.Spec.Type' = "postgres"
      ∧ (cleanupFailEnv sandwichedDatabase).NewDB = none
      ∧ IsZero sandwichedDatabase.ObjectMeta.DeletionTimestamp = false
      ∧ contains sandwichedDatabase.ObjectMeta.Finalizers myFinalizerName = true
      ∧ (cleanupFailEnv sandwichedDatabase).DropUser sandwichedDatabase.Name ≠ none
      ∧ (Reconcile (cleanupFailEnv sandwichedDatabase) none).result = .ok :=
  ⟨rfl, by decide, rfl, rfl, by decide, by decide, by decide,
    (failed_cleanup_is_logged_only (cleanupFailEnv sandwichedDatabase) none sandwichedDatabase
      rfl (by decide) rfl rfl (by decide) (by decide) (Or.inr (Or.inl (by decide)))).2.2.2
      rfl⟩

/-- C13 as stated fails: `orders` has deletion requested and carries the marker; the delete
of the secret and `DropUser` both fail.  Both steps are issued, the `Update` that removes the
marker follows, and the pass returns nil, not an error. -/
theorem failed_cleanup_is_not_surfaced :
    IsZero finalizingDatabase.ObjectMeta.DeletionTimestamp = false
      ∧ contains finalizingDatabase.ObjectMeta.Finalizers myFinalizerName = true
      ∧ (Reconcile (cleanupFailEnv finalizingDatabase) none).trace
          = [ ⟨Call.NewDB finalizingDatabase, none⟩,
              ⟨Call.Get ⟨"default", "orders-postgres"⟩, some "not found"⟩,
              ⟨Call.Delete emptySecret, some "forbidden"⟩,
              ⟨Call.DropUser "orders", some "role is in use"⟩,
              ⟨Call.Update
                  { finalizingDatabase with
                    ObjectMeta := { finalizingDatabase.ObjectMeta with Finalizers := [] }
                    Status := { Phase := "Terminating" } },
                none⟩ ]
      ∧ (Reconcile (cleanupFailEnv finalizingDatabase) none).result = .ok := by
  decide

/-! ## A pass after a failed secret write -/

/-- Where the steps of a pass over a live resource come from: adapter construction, the
finalizer registration (status and spec untouched), the provisioning section run on a
resource with the fetched status, or the convergence section. -/
theorem Reconcile_live_steps (env : Env) (db : Option Postgres) (d : Database)
    (hget : env.Get = .found d)
    (hlive : IsZero d.ObjectMeta.DeletionTimestamp = true) :
    ∀ s ∈ (Reconcile env db).trace,
      s.call = Call.NewDB d
        ∨ (∃ obj, s.call = Call.Update obj ∧ obj.Status = d.Status ∧ obj.Spec = d.Spec)
        ∨ (∃ db1 d2, d2.Status = d.Status ∧ s ∈ (provision env db1 d2).1)
        ∨ setupCall s.call = false := by
  by_cases hT : d.Status.Phase = "Terminating"
  · have h0 : Reconcile env db = ⟨[], .ok, db⟩ := by
      unfold Reconcile
      simp [hget, hT]
    rw [h0]
    simp
  · have s1 := selectBackend_calls env db d
    have n1 := selectBackend_next env db d
    rcases h1 : selectBackend env db d with ⟨t1, db1, f1⟩
    rw [h1] at s1 n1
    simp only at s1 n1
    cases f1 with
    | ret o =>
      rw [Reconcile_of_select_ret env db d t1 db1 o hget hT h1]
      intro s hs
      exact Or.inl (s1 s hs)
    | next d1 =>
      have e1 : d1 = d := n1 d1 rfl
      subst e1
      have s2 := finalizerStage_live env db1 d1 hlive
      have n2 := finalizerStage_next env db1 d1
      rcases h2 : finalizerStage env db1 d1 with ⟨t2, f2⟩
      rw [h2] at s2 n2
      simp only at s2 n2
      cases f2 with
      | ret o =>
        rw [Reconcile_of_stage_ret env db d1 t1 db1 d1 t2 o hget hT h1 h2]
        intro s hs
        simp only [List.mem_append] at hs
        rcases hs with hs | hs
        · exact Or.inl (s1 s hs)
        · exact Or.inr (Or.inl (s2 s hs))
      | next d2 =>
        obtain ⟨-, e2, -, -, -⟩ := n2 d2 rfl
        rcases h3 : provision env db1 d2 with ⟨t3, f3⟩
        have m3 : ∀ s ∈ t3, ∃ db1 d2, d2.Status = d1.Status ∧ s ∈ (provision env db1 d2).1 :=
          fun s hs => ⟨db1, d2, e2, by rw [h3]; exact hs⟩
        cases f3 with
        | ret o =>
          rw [Reconcile_of_provision_ret env db d1 t1 db1 d1 t2 d2 t3 o hget hT h1 h2 h3]
          intro s hs
          simp only [List.mem_append] at hs
          rcases hs with (hs | hs) | hs
          · exact Or.inl (s1 s hs)
          · exact Or.inr (Or.inl (s2 s hs))
          · exact Or.inr (Or.inr (Or.inl (m3 s hs)))
        | next d3 =>
          rw [Reconcile_of_converge env db d1 t1 db1 d1 t2 d2 t3 d3 hget hT h1 h2 h3]
          intro s hs
          simp only [List.mem_append] at hs
          rcases hs with ((hs | hs) | hs) | hs
          · exact Or.inl (s1 s hs)
          · exact Or.inr (Or.inl (s2 s hs))
          · exact Or.inr (Or.inr (Or.inl (m3 s hs)))
          · exact Or.inr (Or.inr (Or.inr (converge_membership env db1 d3 s hs)))

/-- A pass over a live resource that issues the existence check started from a phase other
than `Created`. -/
theorem Reconcile_exists_phase (env : Env) (db : Option Postgres) (d : Database)
    (hget : env.Get = .found d)
    (hlive : IsZero d.ObjectMeta.DeletionTimestamp = true)
    (hchk : Call.Exists ∈ calls (Reconcile env db).trace) :
    d.Status.Phase ≠ "Created" := by
  obtain ⟨s, hs, hsc⟩ := List.mem_map.1 hchk
  rcases Reconcile_live_steps env db d hget hlive s hs with h | ⟨obj, h, -⟩ | ⟨db1, d2, e2, h⟩ | h
  · rw [hsc] at h; simp at h
  · rw [hsc] at h; simp at h
  · obtain ⟨pg, -, hp⟩ := provision_exists_mem env db1 d2
      (List.mem_map.2 ⟨s, h, hsc⟩)
    rw [← e2]
    exact hp
  · rw [hsc] at h; simp [setupCall] at h

/-- A pass over a live resource against a backend that reports the database as existing:
every call is adapter construction, an `Update` that carries the fetched status, the
existence check, or one of the role-member listing, `Grant` and `Revoke`. -/
theorem Reconcile_existing_calls (env : Env) (db : Option Postgres) (d : Database)
    (hget : env.Get = .found d)
    (hlive : IsZero d.ObjectMeta.DeletionTimestamp = true)
    (hex : env.Exists = .ok true) :
    ∀ c ∈ calls (Reconcile env db).trace,
      c = Call.NewDB d ∨ (∃ obj, c = Call.Update obj ∧ obj.Status = d.Status)
        ∨ c = Call.Exists ∨ setupCall c = false := by
  intro c hc
  obtain ⟨s, hs, hsc⟩ := List.mem_map.1 hc
  rcases Reconcile_live_steps env db d hget hlive s hs with h | ⟨obj, h, hst, -⟩ | ⟨db1, d2, -, h⟩ | h
  · exact Or.inl (hsc ▸ h)
  · exact Or.inr (Or.inl ⟨obj, hsc ▸ h, hst⟩)
  · have hq := (provision_quiet env db1 d2
      (fun _ b hb => by rw [hex] at hb; cases hb; rfl)).1 s h
    exact Or.inr (Or.inr (Or.inl (hsc ▸ hq)))
  · exact Or.inr (Or.inr (Or.inr (hsc ▸ h)))

/-- C11, as amended (a missing secret is not written again on the next pass): for a resource
that is not being deleted, when a pass ended on a failed secret `Create` (the database and
the owned user having been created before it), the resource the store then holds is still
not in phase `Created`; and the next pass over that resource, against a backend that now
reports the database as existing, issues no secret `Create`, no `CreateDatabase` and no
`CreateUser`, whatever the secret store would answer, and submits no resource in phase
`Created`. -/
theorem missing_secret_is_not_rewritten (env1 env2 : Env) (db : Option Postgres)
    (database : Database) (secret : Secret) (e : Error)
    (hget1 : env1.Get = .found database)
    (hlive : IsZero database.ObjectMeta.DeletionTimestamp = true)
    (hfail : (⟨Call.Create secret, some e⟩ : Step) ∈ (Reconcile env1 db).trace)
    (hget2 : env2.Get = .found (storedAfter database (Reconcile env1 db).trace))
    (hex2 : env2.Exists = .ok true) :
    (storedAfter database (Reconcile env1 db).trace).Status.Phase ≠ "Created"
      ∧ (∀ s, Call.Create s ∉ calls (Reconcile env2 (Reconcile env1 db).db).trace)
      ∧ Call.CreateDatabase ∉ calls (Reconcile env2 (Reconcile env1 db).db).trace
      ∧ (∀ user, Call.CreateUser user ∉ calls (Reconcile env2 (Reconcile env1 db).db).trace)
      ∧ (∀ obj, Call.Update obj ∈ calls (Reconcile env2 (Reconcile env1 db).db).trace
          → obj.Status.Phase ≠ "Created") := by
  obtain ⟨t1, t2, pw, -, htr, h1, h2, -⟩ :=
    Reconcile_failed_create_shape env1 db database secret e hget1 hlive hfail
  have hchk : Call.Exists ∈ calls (Reconcile env1 db).trace := by
    rw [htr]; simp
  have hph := Reconcile_exists_phase env1 db database hget1 hlive hchk
  have hst : (storedAfter database (Reconcile env1 db).trace).Status = database.Status
      ∧ (storedAfter database (Reconcile env1 db).trace).ObjectMeta.DeletionTimestamp
          = database.ObjectMeta.DeletionTimestamp := by
    rcases storedAfter_cases database (Reconcile env1 db).trace with h | h
    · rw [h]; exact ⟨rfl, rfl⟩
    · obtain ⟨hF, -, -⟩ := Reconcile_updates env1 db database hget1 _ h
      refine ⟨?_, hF.2.2.1⟩
      obtain ⟨s, hs, hsc⟩ := List.mem_map.1 h
      rw [htr] at hs
      simp only [List.mem_append, List.mem_cons, List.mem_singleton, List.not_mem_nil,
        or_false] at hs
      rcases hs with (hs | hs) | hs
      · have := h1 s hs
        rw [hsc] at this
        simp at this
      · obtain ⟨obj, ho, hso, -⟩ := h2 s hs
        rw [hsc] at ho
        simp only [Call.Update.injEq] at ho
        rw [ho]; exact hso
      · rcases hs with hs | hs | hs | hs | hs <;> (subst hs; simp at hsc)
  obtain ⟨hstatus, hdts⟩ := hst
  have hlive2 :
      IsZero (storedAfter database (Reconcile env1 db).trace).ObjectMeta.DeletionTimestamp
        = true := by
    rw [hdts]; exact hlive
  have hph2 : (storedAfter database (Reconcile env1 db).trace).Status.Phase ≠ "Created" := by
    rw [hstatus]; exact hph
  have key := Reconcile_existing_calls env2 (Reconcile env1 db).db _ hget2 hlive2 hex2
  refine ⟨hph2, ?_, ?_, ?_, ?_⟩
  · intro s hc
    rcases key _ hc with h | ⟨obj, h, -⟩ | h | h <;> simp [setupCall] at h
  · intro hc
    rcases key _ hc with h | ⟨obj, h, -⟩ | h | h <;> simp [setupCall] at h
  · intro user hc
    rcases key _ hc with h | ⟨obj, h, -⟩ | h | h <;> simp [setupCall] at h
  · intro obj hc
    rcases key _ hc with h | ⟨obj', h, hso⟩ | h | h
    · simp at h
    · simp only [Call.Update.injEq] at h
      subst h
      rw [hso]
      exact hph2
    · simp at h
    · simp [setupCall] at h

/-- The instance of the amended C11 at `orders`: the first pass fails to write the secret, the
second pass runs over the stored resource against a backend that reports the database as
existing; the hypotheses hold and the second pass issues no secret `Create`. -/
theorem missing_secret_is_not_rewritten_witness :
    (secretFailEnv ordersDatabase []).Get = .found ordersDatabase
      ∧ IsZero ordersDatabase.ObjectMeta.DeletionTimestamp = true
      ∧ (⟨Call.Create (newSecret (secretFailEnv ordersDatabase []) ordersDatabase
              ⟨"orders", "s3cret"⟩), some "forbidden"⟩ : Step)
          ∈ (Reconcile (secretFailEnv ordersDatabase []) none).trace
      ∧ (existingEnv
            (storedAfter ordersDatabase (Reconcile (secretFailEnv ordersDatabase []) none).trace)
            []).Get
          = .found
              (storedAfter ordersDatabase
                (Reconcile (secretFailEnv ordersDatabase []) none).trace)
      ∧ (existingEnv
            (storedAfter ordersDatabase (Reconcile (secretFailEnv ordersDatabase []) none).trace)
            []).Exists = .ok true
      ∧ (∀ s, Call.Create s ∉ calls
          (Reconcile
            (existingEnv
              (storedAfter ordersDatabase
                (Reconcile (secretFailEnv ordersDatabase []) none).trace) [])
            (Reconcile (secretFailEnv ordersDatabase []) none).db).trace) :=
  ⟨rfl, by decide, by decide, rfl, rfl,
    (missing_secret_is_not_rewritten (secretFailEnv ordersDatabase [])
      (existingEnv
        (storedAfter ordersDatabase (Reconcile (secretFailEnv ordersDatabase []) none).trace) [])
      none ordersDatabase
      (newSecret (secretFailEnv ordersDatabase []) ordersDatabase ⟨"orders", "s3cret"⟩)
      "forbidden" rfl (by decide) (by decide) rfl rfl).2.1⟩

/-- C11 as stated fails: the first pass over `orders` creates the database and the owned
user and fails to write the secret; the store then holds `orders` with the marker and the
phase still empty.  The next pass, with the database now existing and a secret store that
accepts every write, issues adapter construction, the existence check, the listing and the
two grants, and no secret `Create`. -/
theorem second_pass_writes_no_secret :
    calls (Reconcile (secretFailEnv ordersDatabase []) none).trace
        = [ Call.NewDB ordersDatabase, Call.Update registeredDatabase, Call.Exists,
            Call.CreateDatabase, Call.NewUser, Call.CreateUser ⟨"orders", "s3cret"⟩,
            Call.Create
              ⟨"orders-postgres", "default",
                [("database-host", "localhost"), ("database-port", "5432"),
                  ("database-name", "orders"), ("database-user", "orders"),
                  ("database-password", "s3cret")]⟩ ]
      ∧ (Reconcile (secretFailEnv ordersDatabase []) none).trace.getLast?
          = some ⟨Call.Create
              ⟨"orders-postgres", "default",
                [("database-host", "localhost"), ("database-port", "5432"),
                  ("database-name", "orders"), ("database-user", "orders"),
                  ("database-password", "s3cret")]⟩, some "forbidden"⟩
      ∧ storedAfter ordersDatabase (Reconcile (secretFailEnv ordersDatabase []) none).trace
          = registeredDatabase
      ∧ registeredDatabase.Status.Phase ≠ "Created"
      ∧ (existingEnv registeredDatabase []).Create
            ⟨"orders-postgres", "default",
              [("database-host", "localhost"), ("database-port", "5432"),
                ("database-name", "orders"), ("database-user", "orders"),
                ("database-password", "s3cret")]⟩ = none
      ∧ (Reconcile (existingEnv registeredDatabase [])
            (Reconcile (secretFailEnv ordersDatabase []) none).db).trace
          = [ ⟨Call.NewDB registeredDatabase, none⟩, ⟨Call.Exists, none⟩,
              ⟨Call.RoleUsers, none⟩, ⟨Call.Grant "orders", none⟩,
              ⟨Call.Grant "alice", none⟩ ]
      ∧ (Reconcile (existingEnv registeredDatabase [])
            (Reconcile (secretFailEnv ordersDatabase []) none).db).result = .ok := by
  decide

/-! ## Fresh provisioning -/

/-- The grant loop against an empty role with every `Grant` succeeding: one successful
`Grant` per entry of the list, in order. -/
theorem grantLoop_fresh (env : Env) (hg : ∀ i u, env.Grant i u = none) (L : List String)
    (i : Nat) (err : Option Error) :
    (grantLoop env [] i L err).1 = L.map (fun u => (⟨Call.Grant u, none⟩ : Step)) := by
  induction L generalizing i err with
  | nil => simp [grantLoop]
  | cons u rest ih => simp [grantLoop, contains, hg, ih]

/-- C16 (fresh provisioning, Scenario A): for a resource of type `postgres` that is not being
deleted, in a phase that is neither `Created` nor `Terminating`, without the finalizer
marker, when the database does not exist, the role has no members and every call succeeds
(adapter construction included, `pw` being the generated password), one pass issues exactly:
adapter construction, the `Update` that registers the marker, the existence check,
`CreateDatabase`, password generation, `CreateUser` with the resource name and `pw`, the
`Create` of the secret named `<name>-<type>` in the resource's namespace with the five fields
`database-host`, `database-port`, `database-name`, `database-user`, `database-password`
(name and user equal to the resource name, password equal to `pw`), the `Update` that sets
phase `Created`, the role-member listing, and one `Grant` for the resource name followed by
one per declared user; the pass returns nil and the store then holds the resource with the
marker in phase `Created`. -/
theorem fresh_provisioning (env : Env) (db : Option Postgres) (database : Database)
    (pw : String)
    (hget : env.Get = .found database)
    (hlive : IsZero database.ObjectMeta.DeletionTimestamp = true)
    (hnew : database.Status.Phase ≠ "Created")
    (hT : database.Status.Phase ≠ "Terminating")
    (hfin : contains database.ObjectMeta.Finalizers myFinalizerName = false)
    (htype : database.Spec.Type' = "postgres")
    (hNewDB : env.NewDB = none)
    (hUpdate : ∀ obj, env.Update obj = none)
    (hExists : env.Exists = .ok false)
    (hCreateDatabase : env.CreateDatabase = none)
    (hNewUser : env.NewUser = .ok pw)
    (hCreateUser : ∀ user, env.CreateUser user = none)
    (hCreate : ∀ secret, env.Create secret = none)
    (hRoleUsers : env.RoleUsers = .ok [])
    (hGrant : ∀ i u, env.Grant i u = none) :
    (Reconcile env db).trace
        = [ ⟨Call.NewDB database, none⟩,
            ⟨Call.Update
                { database with
                  ObjectMeta :=
                    { database.ObjectMeta with
                      Finalizers := database.ObjectMeta.Finalizers ++ [myFinalizerName] } },
              none⟩,
            ⟨Call.Exists, none⟩,
            ⟨Call.CreateDatabase, none⟩,
            ⟨Call.NewUser, none⟩,
            ⟨Call.CreateUser ⟨database.Name, pw⟩, none⟩,
            ⟨Call.Create
                ⟨database.Name ++ "-" ++ database.Spec.Type', database.Namespace,
                  [ ("database-host", env.GetHost), ("database-port", "5432"),
                    ("database-name", database.Name), ("database-user", database.Name),
                    ("database-password", pw) ]⟩,
              none⟩,
            ⟨Call.Update
                { database with
                  ObjectMeta :=
                    { database.ObjectMeta with
                      Finalizers := database.ObjectMeta.Finalizers ++ [myFinalizerName] }
                  Status := { Phase := "Created" } },
              none⟩,
            ⟨Call.RoleUsers, none⟩,
            ⟨Call.Grant database.Name, none⟩ ]
          ++ database.Spec.Users.map (fun u => (⟨Call.Grant u, none⟩ : Step))
      ∧ (Reconcile env db).result = .ok
      ∧ storedAfter database (Reconcile env db).trace
          = { database with
              ObjectMeta :=
                { database.ObjectMeta with
                  Finalizers := database.ObjectMeta.Finalizers ++ [myFinalizerName] }
              Status := { Phase := "Created" } } := by
  have h1 : selectBackend env db database
      = ([⟨.NewDB database, none⟩], some (NewDB database), .next database) := by
    simp [selectBackend, htype, hNewDB]
  have h2 : finalizerStage env (some (NewDB database)) database
      = ([⟨.Update
              { database with
                ObjectMeta :=
                  { database.ObjectMeta with
                    Finalizers := database.ObjectMeta.Finalizers ++ [myFinalizerName] } },
            none⟩],
          .next
            { database with
              ObjectMeta :=
                { database.ObjectMeta with
                  Finalizers := database.ObjectMeta.Finalizers ++ [myFinalizerName] } }) := by
    simp [finalizerStage, hlive, hfin, hUpdate]
  have h3 : provision env (some (NewDB database))
        { database with
          ObjectMeta :=
            { database.ObjectMeta with
              Finalizers := database.ObjectMeta.Finalizers ++ [myFinalizerName] } }
      = ([ ⟨Call.Exists, none⟩,
            ⟨Call.CreateDatabase, none⟩,
            ⟨Call.NewUser, none⟩,
            ⟨Call.CreateUser ⟨database.Name, pw⟩, none⟩,
            ⟨Call.Create
                ⟨database.Name ++ "-" ++ database.Spec.Type', database.Namespace,
                  [ ("database-host", env.GetHost), ("database-port", "5432"),
                    ("database-name", database.Name), ("database-user", database.Name),
                    ("database-password", pw) ]⟩,
              none⟩,
            ⟨Call.Update
                { database with
                  ObjectMeta :=
                    { database.ObjectMeta with
                      Finalizers := database.ObjectMeta.Finalizers ++ [myFinalizerName] }
                  Status := { Phase := "Created" } },
              none⟩ ],
          .next
            { database with
              ObjectMeta :=
                { database.ObjectMeta with
                  Finalizers := database.ObjectMeta.Finalizers ++ [myFinalizerName] }
              Status := { Phase := "Created" } }) := by
    simp [provision, hnew, hExists, hCreateDatabase, hNewUser, hCreateUser, hCreate, hUpdate,
      newSecret, secretKey]
  have h4 : converge env (some (NewDB database))
        { database with
          ObjectMeta :=
            { database.ObjectMeta with
              Finalizers := database.ObjectMeta.Finalizers ++ [myFinalizerName] }
          Status := { Phase := "Created" } }
      = (⟨Call.RoleUsers, none⟩ :: ⟨Call.Grant database.Name, none⟩
            :: database.Spec.Users.map (fun u => (⟨Call.Grant u, none⟩ : Step)), .ok) := by
    simp only [converge, hRoleUsers, revokeLoop]
    rw [grantLoop_err, grantLoop_fresh env hGrant]
    simp [outcomeOf]
  have hR := Reconcile_of_converge env db database _ _ _ _ _ _ _ hget hT h1 h2 h3
  rw [h4] at hR
  rw [hR]
  refine ⟨by simp, rfl, ?_⟩
  simp only [storedAfter_append]
  rw [storedAfter_of_no_update _
    (⟨Call.RoleUsers, none⟩ :: ⟨Call.Grant database.Name, none⟩
      :: database.Spec.Users.map (fun u => (⟨Call.Grant u, none⟩ : Step)))]
  · simp [storedAfter]
  · intro s hs obj
    simp only [List.mem_cons, List.mem_map] at hs
    rcases hs with rfl | rfl | ⟨u, -, rfl⟩ <;> simp

/-- The instance of C16 at `orders` (declared user `alice`) against a fresh backend: the
hypotheses hold and the pass ends with success. -/
theorem fresh_provisioning_witness :
    (calmEnv ordersDatabase []).Get = .found ordersDatabase
      ∧ IsZero ordersDatabase.ObjectMeta.DeletionTimestamp = true
      ∧ ordersDatabase.Status.Phase ≠ "Created"
      ∧ ordersDatabase.Status.Phase ≠ "Terminating"
      ∧ contains ordersDatabase.ObjectMeta.Finalizers myFinalizerName = false
      ∧ ordersDatabase.Spec.Type' = "postgres"
      ∧ (calmEnv ordersDatabase []).NewDB = none
      ∧ (∀ obj, (calmEnv ordersDatabase []).Update obj = none)
      ∧ (calmEnv ordersDatabase []).Exists = .ok false
      ∧ (calmEnv ordersDatabase []).CreateDatabase = none
      ∧ (calmEnv ordersDatabase []).NewUser = .ok "s3cret"
      ∧ (∀ user, (calmEnv ordersDatabase []).CreateUser user = none)
      ∧ (∀ secret, (calmEnv ordersDatabase []).Create secret = none)
      ∧ (calmEnv ordersDatabase []).RoleUsers = .ok []
      ∧ (∀ i u, (calmEnv ordersDatabase []).Grant i u = none)
      ∧ (Reconcile (calmEnv ordersDatabase []) none).result = .ok :=
  ⟨rfl, by decide, by decide, by decide, by decide, rfl, rfl, fun _ => rfl, rfl, rfl, rfl,
    fun _ => rfl, fun _ => rfl, rfl, fun _ _ => rfl,
    (fresh_provisioning (calmEnv ordersDatabase []) none ordersDatabase "s3cret" rfl
      (by decide) (by decide) (by decide) (by decide) rfl rfl (fun _ => rfl) rfl rfl rfl
      (fun _ => rfl) (fun _ => rfl) rfl (fun _ _ => rfl)).2.1⟩

/-! ## The statements of `CreateDatabase` -/

/-- What `CreateDatabase` executes: the `CREATE DATABASE` statement for the resource name,
followed, when that statement succeeded and the declared schema is not empty, by a
`CREATE SCHEMA IF NOT EXISTS` statement that, too, is built from the resource name. -/
theorem CreateDatabase_statements (exec : String → Option Error) (pg : Postgres) :
    (Postgres.CreateDatabase exec pg).1
      = if exec ("CREATE DATABASE \"" ++ pg.dbs.Name ++ "\"") = none ∧ pg.dbs.Spec.Schema ≠ ""
        then [ "CREATE DATABASE \"" ++ pg.dbs.Name ++ "\"",
               "CREATE SCHEMA IF NOT EXISTS \"" ++ pg.dbs.Name ++ "\"" ]
        else [ "CREATE DATABASE \"" ++ pg.dbs.Name ++ "\"" ] := by
  unfold Postgres.CreateDatabase
  dsimp only
  split
  · rename_i err h
    simp [h]
  · rename_i h
    by_cases hs : pg.dbs.Spec.Schema = ""
    · simp [h, hs]
    · simp only [h, hs, bne_iff_ne, ne_eq, not_false_eq_true, if_true, and_self]
      split <;> rfl

/-- C19 (schema creation follows the declaration) at a failing input: the resource `billing`
declares the schema `app`.  With every statement succeeding, `CreateDatabase` executes
`CREATE DATABASE "billing"` and then `CREATE SCHEMA IF NOT EXISTS "billing"`: the schema
statement names the resource, and no statement names the declared schema `app`.  (When the
`CREATE DATABASE` statement fails, it is the only statement and its error is returned.) -/
theorem schema_statement_names_the_database :
    (NewDB sandwichedDatabase).dbs.Name = "billing"
      ∧ (NewDB sandwichedDatabase).dbs.Spec.Schema = "app"
      ∧ Postgres.CreateDatabase (fun _ => none) (NewDB sandwichedDatabase)
          = ( [ "CREATE DATABASE \"billing\"", "CREATE SCHEMA IF NOT EXISTS \"billing\"" ],
              none )
      ∧ "CREATE SCHEMA IF NOT EXISTS \"app\""
          ∉ (Postgres.CreateDatabase (fun _ => none) (NewDB sandwichedDatabase)).1
      ∧ Postgres.CreateDatabase busyConn (NewDB sandwichedDatabase)
          = ( [ "CREATE DATABASE \"billing\"" ], some "database already exists" ) := by
  decide

end DbOperator
